import Mathlib

/-!
A shallow embedding of the segmented commit-log core of the `prolog`
repository (package `internal/log`, plus the membership event handler),
together with proofs of the specification's claims about it.

Conventions of the embedding:
* Go `uint64`/`uint32` values are represented as `Nat`; every narrowing
  conversion the source performs explicitly (`uint32(...)`, the `int64`
  reinterpretation of a `uint64`) is modelled with an explicit `% 2 ^ w`
  or a signed reinterpretation, at the same place it occurs in the source.
* File contents are byte lists (`List Nat`, each element a byte value).
* The `bufio.Writer` of a `Store` is elided: every read path of the source
  (`Store.Read`, `Store.ReadAt`) and `Store.Close` flush the buffer first,
  so the observable byte sequence is always `file ++ buffer`; the model
  keeps that concatenation directly.
* I/O errors (syscall failures) have no pure counterpart and are not
  modelled; the fallible operations keep exactly the logical failure
  conditions of the source (`io.EOF` on index reads past the tail and
  index writes past the mmap capacity, short positional reads, and
  decode failures).
-/

namespace Prolog

/-! ## Big-endian encoding (`encoding/binary.BigEndian`) -/

/-- `binary.BigEndian.PutUint64`: the eight big-endian bytes of `n % 2^64`. -/
def u64beBytes (n : Nat) : List Nat :=
  [n / 2 ^ 56 % 256, n / 2 ^ 48 % 256, n / 2 ^ 40 % 256, n / 2 ^ 32 % 256,
   n / 2 ^ 24 % 256, n / 2 ^ 16 % 256, n / 2 ^ 8 % 256, n % 256]

/-- Big-endian decoding of a byte list (`binary.BigEndian.Uint64` on 8 bytes). -/
def beDecode (bs : List Nat) : Nat :=
  bs.foldl (fun a b => a * 256 + b) 0

theorem u64beBytes_length (n : Nat) : (u64beBytes n).length = 8 := rfl

theorem beDecode_u64beBytes (n : Nat) : beDecode (u64beBytes n) = n % 2 ^ 64 := by
  simp only [u64beBytes, beDecode, List.foldl]
  omega

/-! ## Protocol buffer wire format for `api/v1.Record`

`message Record { bytes value = 1; uint64 offset = 2; }` (README, api section).
`proto.Marshal` emits field 1 (tag `0x0A`, length-delimited) when the value is
non-empty and field 2 (tag `0x10`, varint) when the offset is non-zero, in
field order; `proto.Unmarshal` parses tag-by-tag with last-value-wins.
-/

/-- A log record: an opaque byte payload plus its 64-bit offset. -/
structure Record where
  value : List Nat
  offset : Nat
  deriving DecidableEq, Repr

/-- Protobuf base-128 varint encoding, with structural fuel (any
`fuel > n` gives the encoding; the fallback branch is unreachable then). -/
def varintEncAux : Nat → Nat → List Nat
  | 0, n => [n]
  | fuel + 1, n => if n < 128 then [n] else (n % 128 + 128) :: varintEncAux fuel (n / 128)

/-- Protobuf base-128 varint encoding. -/
def varintEnc (n : Nat) : List Nat :=
  varintEncAux (n + 1) n

theorem varintEncAux_congr (f1 : Nat) : ∀ f2 n, n < f1 → n < f2 →
    varintEncAux f1 n = varintEncAux f2 n := by
  induction f1 with
  | zero => intro f2 n h1; omega
  | succ f1 ih =>
    intro f2 n h1 h2
    cases f2 with
    | zero => omega
    | succ f2 =>
      simp only [varintEncAux]
      by_cases h : n < 128
      · simp [h]
      · simp only [h, if_neg, not_false_iff]
        rw [ih f2 (n / 128)
          (by have := Nat.div_lt_self (by omega : 0 < n) (by omega : 1 < 128); omega)
          (by have := Nat.div_lt_self (by omega : 0 < n) (by omega : 1 < 128); omega)]

theorem varintEnc_eq (n : Nat) :
    varintEnc n = if n < 128 then [n] else (n % 128 + 128) :: varintEnc (n / 128) := by
  unfold varintEnc
  rw [varintEncAux]
  by_cases h : n < 128
  · simp [h]
  · simp only [h, if_neg, not_false_iff]
    rw [varintEncAux_congr n (n / 128 + 1) (n / 128)
      (by have := Nat.div_lt_self (by omega : 0 < n) (by omega : 1 < 128); omega)
      (by omega)]

/-- Protobuf varint decoding; returns the value and the remaining bytes. -/
def varintDec : List Nat → Option (Nat × List Nat)
  | [] => none
  | b :: rest =>
    if b < 128 then some (b, rest)
    else match varintDec rest with
      | none => none
      | some (n, r) => some (b % 128 + 128 * n, r)

theorem varintDec_enc (n : Nat) (rest : List Nat) :
    varintDec (varintEnc n ++ rest) = some (n, rest) := by
  induction n using Nat.strong_induction_on with
  | _ n ih =>
    by_cases h : n < 128
    · rw [varintEnc_eq]
      simp [h, varintDec]
    · rw [varintEnc_eq]
      simp only [h, if_neg, not_false_iff, List.cons_append]
      rw [varintDec]
      rw [if_neg (by omega)]
      rw [ih (n / 128) (Nat.div_lt_self (by omega) (by omega))]
      simp only [Option.some.injEq, Prod.mk.injEq]
      exact ⟨by omega, trivial⟩

theorem varintDec_length {bs r : List Nat} {n : Nat}
    (h : varintDec bs = some (n, r)) : r.length < bs.length := by
  induction bs generalizing n r with
  | nil => simp [varintDec] at h
  | cons b rest ih =>
    rw [varintDec] at h
    by_cases hb : b < 128
    · simp only [hb, if_pos] at h
      cases h
      simp
    · simp only [hb, if_neg, not_false_iff] at h
      cases hv : varintDec rest with
      | none => rw [hv] at h; cases h
      | some p =>
        cases p with
        | mk m r2 =>
          rw [hv] at h
          cases h
          have := ih hv
          simp
          omega

/-- `proto.Marshal` of a `Record` (proto3: zero-valued fields are omitted). -/
def protoMarshal (r : Record) : List Nat :=
  (if r.value = [] then [] else 10 :: varintEnc r.value.length ++ r.value) ++
  (if r.offset = 0 then [] else 16 :: varintEnc r.offset)

/-- The tag-dispatch loop of `proto.Unmarshal` for the two fields of `Record`. -/
def protoFields (bs : List Nat) (acc : Record) : Option Record :=
  match bs with
  | [] => some acc
  | b :: rest =>
    if b = 10 then
      match hv : varintDec rest with
      | none => none
      | some (len, r2) =>
        if r2.length < len then none
        else protoFields (r2.drop len) { acc with value := r2.take len }
    else if b = 16 then
      match hv : varintDec rest with
      | none => none
      | some (n, r2) => protoFields r2 { acc with offset := n }
    else none
termination_by bs.length
decreasing_by
  · have h1 := varintDec_length hv
    have h2 : (List.drop len r2).length ≤ r2.length := by simp
    simp only [List.length_cons] at h1 ⊢
    omega
  · have h1 := varintDec_length hv
    simp only [List.length_cons] at h1 ⊢
    omega

/-- `protoFields` with structural fuel: agrees with `protoFields` whenever
`bs.length < fuel`. -/
def protoFieldsAux : Nat → List Nat → Record → Option Record
  | 0, _, _ => none
  | _ + 1, [], acc => some acc
  | fuel + 1, b :: rest, acc =>
    if b = 10 then
      match varintDec rest with
      | none => none
      | some (len, r2) =>
        if r2.length < len then none
        else protoFieldsAux fuel (r2.drop len) { acc with value := r2.take len }
    else if b = 16 then
      match varintDec rest with
      | none => none
      | some (n, r2) => protoFieldsAux fuel r2 { acc with offset := n }
    else none

theorem protoFieldsAux_eq_protoFields (fuel : Nat) : ∀ bs acc, bs.length < fuel →
    protoFieldsAux fuel bs acc = protoFields bs acc := by
  induction fuel with
  | zero => intro bs acc h; omega
  | succ fuel ih =>
    intro bs acc h
    match bs with
    | [] => rw [protoFields]; rfl
    | b :: rest =>
      rw [protoFields]
      simp only [protoFieldsAux]
      by_cases hb10 : b = 10
      · simp only [hb10, if_pos]
        cases hv : varintDec rest with
        | none => rfl
        | some p =>
          cases p with
          | mk len r2 =>
            have hlt : r2.length < rest.length := varintDec_length hv
            have hr : rest.length < fuel := by
              simp only [List.length_cons] at h
              omega
            by_cases hl : r2.length < len
            · simp [hl]
            · simp only [hl, if_neg, not_false_iff]
              have hd : (r2.drop len).length < fuel := by
                have : (r2.drop len).length ≤ r2.length := by simp
                omega
              rw [ih (r2.drop len) _ hd]
      · by_cases hb16 : b = 16
        · subst hb16
          norm_num
          cases hv : varintDec rest with
          | none => rfl
          | some p =>
            cases p with
            | mk n r2 =>
              have hlt : r2.length < rest.length := varintDec_length hv
              have hr : rest.length < fuel := by
                simp only [List.length_cons] at h
                omega
              exact ih r2 { acc with offset := n } (by omega)
        · simp [hb10, hb16]

/-- `proto.Unmarshal` into a fresh `Record` (defaults: empty value, offset 0). -/
def protoUnmarshal (bs : List Nat) : Option Record :=
  protoFieldsAux (bs.length + 1) bs { value := [], offset := 0 }

theorem protoUnmarshal_eq (bs : List Nat) :
    protoUnmarshal bs = protoFields bs { value := [], offset := 0 } :=
  protoFieldsAux_eq_protoFields (bs.length + 1) bs _ (by omega)

theorem protoFields_nil (acc : Record) : protoFields [] acc = some acc := by
  rw [protoFields]

theorem protoFields_offsetField (n : Nat) (rest : List Nat) (acc : Record) :
    protoFields (16 :: (varintEnc n ++ rest)) acc =
      protoFields rest { acc with offset := n } := by
  rw [protoFields]
  norm_num
  rw [varintDec_enc]

theorem protoFields_valueField (v rest : List Nat) (acc : Record) :
    protoFields (10 :: (varintEnc v.length ++ (v ++ rest))) acc =
      protoFields rest { acc with value := v } := by
  rw [protoFields]
  norm_num
  rw [varintDec_enc]
  split
  next heq => cases heq
  next len r2 heq =>
    cases heq
    have hlen : ¬ ((v ++ rest).length < v.length) := by simp
    rw [if_neg hlen]
    rw [List.take_left, List.drop_left]

theorem protoUnmarshal_marshal (r : Record) :
    protoUnmarshal (protoMarshal r) = some r := by
  rw [protoUnmarshal_eq]
  unfold protoMarshal
  by_cases hv : r.value = [] <;> by_cases ho : r.offset = 0
  · simp only [hv, ho, if_pos, List.nil_append, protoFields_nil]
    cases r
    simp_all
  · simp only [hv, ho, if_pos, if_neg, not_false_iff, List.nil_append]
    rw [show (16 : Nat) :: varintEnc r.offset = 16 :: (varintEnc r.offset ++ []) by simp]
    rw [protoFields_offsetField, protoFields_nil]
    cases r
    simp_all
  · simp only [hv, ho, if_neg, not_false_iff, if_pos, List.append_nil, List.cons_append]
    rw [show varintEnc r.value.length ++ r.value =
      varintEnc r.value.length ++ (r.value ++ []) by simp]
    rw [protoFields_valueField, protoFields_nil]
    cases r
    simp_all
  · simp only [hv, ho, if_neg, not_false_iff, List.cons_append, List.append_assoc]
    rw [protoFields_valueField]
    rw [show (16 : Nat) :: varintEnc r.offset = 16 :: (varintEnc r.offset ++ []) by simp]
    rw [protoFields_offsetField, protoFields_nil]

/-! ## Errors

The log layer fails with `io.EOF` (index read past the tail, index write past
the mmap capacity, short store reads), with `api.ErrorOffsetOutOfRange{off}`
from `Log.Read`, or with a `proto.Unmarshal` decode failure.
-/

inductive LogError where
  | eof
  | offsetOutOfRange (off : Nat)
  | decodeFailed
  deriving DecidableEq, Repr

deriving instance DecidableEq for Except

/-! ## Store (`internal/log/store.go`, `src/unnamed/part_008`)

`lenWidth = 8`. `Append` writes `u64_be(len p)` then `p` at `pos = size` and
advances `size` by `lenWidth + len p`; `size` always equals the length of the
flushed byte sequence, so the model derives it. `Read(pos)` reads `lenWidth`
bytes at `pos`, decodes the length, and reads that many bytes at
`pos + lenWidth`; `os.File.ReadAt` fails (with `io.EOF`) whenever fewer bytes
than requested are available.
-/

structure Store where
  data : List Nat
  deriving DecidableEq, Repr

def Store.size (s : Store) : Nat := s.data.length

/-- `Store.Append`: returns `(bytesWritten, position, updated store)`. -/
def Store.append (s : Store) (p : List Nat) : Nat × Nat × Store :=
  (8 + p.length, s.size, ⟨s.data ++ u64beBytes p.length ++ p⟩)

/-- `Store.Read`: decode the length prefix at `pos`, then read the payload. -/
def Store.read (s : Store) (pos : Nat) : Option (List Nat) :=
  if s.data.length < pos + 8 then none
  else
    let len := beDecode ((s.data.drop pos).take 8)
    if s.data.length < pos + 8 + len then none
    else some ((s.data.drop (pos + 8)).take len)

/-! ## Index (`internal/log/index.go`, `src/unnamed/part_006`)

`offWidth = 4`, `posWidth = 8`, `endWidth = 12`. The mmap region has the fixed
byte length `MaxIndexBytes` (the file is truncated to that length before
mapping); `cap` records it. The mapped bytes are represented as the list of
the 12-byte entries they encode — every write lands at the 12-aligned
logical size, so `size = 12 * entries.length` and entry number `n` sits at
byte position `12 * n`. `Write` stores the 4-byte and 8-byte big-endian
truncations of its arguments.
-/

structure Index where
  entries : List (Nat × Nat)
  cap : Nat
  deriving DecidableEq, Repr

def Index.size (i : Index) : Nat := 12 * i.entries.length

/-- `index.Read(in)`: `-1` selects the last entry; `uint32(in)` otherwise.
`io.EOF` when the index is empty or the entry lies past the logical size. -/
def Index.read (i : Index) (inp : Int) : Except LogError (Nat × Nat) :=
  if i.size = 0 then .error .eof
  else
    let out : Nat :=
      if inp = -1 then (i.size / 12 - 1) % 2 ^ 32
      else (inp % (2 ^ 32 : Int)).toNat
    if i.size < 12 * out + 12 then .error .eof
    else
      match i.entries.get? out with
      | none => .error .eof
      | some e => .ok e

/-- `index.Write(off, pos)`: `io.EOF` when the mmap has no room for another
12-byte entry; otherwise the entry is appended at the logical size. -/
def Index.write (i : Index) (off pos : Nat) : Except LogError Index :=
  if i.cap < i.size + 12 then .error .eof
  else .ok { i with entries := i.entries ++ [(off % 2 ^ 32, pos % 2 ^ 64)] }

/-! ## Configuration (`internal/log/config.go`) -/

structure Config where
  maxStoreBytes : Nat
  maxIndexBytes : Nat
  initialOffset : Nat
  deriving DecidableEq, Repr

/-- The defaulting performed by `NewLog`: zero caps become 1024. -/
def Config.withDefaults (c : Config) : Config :=
  { c with
    maxStoreBytes := if c.maxStoreBytes = 0 then 1024 else c.maxStoreBytes,
    maxIndexBytes := if c.maxIndexBytes = 0 then 1024 else c.maxIndexBytes }

/-! ## Go integer conversions used by the segment -/

/-- Go `uint64` subtraction `a - b` (wrap-around), for `a, b < 2^64`. -/
def sub64 (a b : Nat) : Nat := (a + (2 ^ 64 - b % 2 ^ 64)) % 2 ^ 64

/-- Go `int64(u)` reinterpretation of a `uint64` value `u < 2^64`. -/
def i64ofU64 (u : Nat) : Int := if u < 2 ^ 63 then (u : Int) else (u : Int) - 2 ^ 64

theorem sub64_of_le {a b : Nat} (hba : b ≤ a) (ha : a < 2 ^ 64) :
    sub64 a b = a - b := by
  unfold sub64
  have hb : b % 2 ^ 64 = b := Nat.mod_eq_of_lt (by omega)
  rw [hb]
  omega

theorem i64ofU64_of_lt {u : Nat} (h : u < 2 ^ 63) : i64ofU64 u = (u : Int) := by
  simp only [i64ofU64]
  rw [if_pos h]

/-! ## Segment (`internal/log/segment.go`, `src/unnamed/part_007`) -/

structure Segment where
  store : Store
  index : Index
  baseOffset : Nat
  nextOffset : Nat
  config : Config
  deriving DecidableEq, Repr

/-- The outcome of `segment.Append`. The Go method receives the record by
pointer and mutates it; `rec` is the caller's record after the call. On the
index-write failure path the store has already grown (orphan tail) while
`nextOffset` and the index are unchanged. `proto.Marshal` cannot fail on a
`Record` (bytes + uint64 fields). -/
structure SegAppendOut where
  res : Except LogError Nat
  seg : Segment
  record : Record
  deriving Repr

/-- `segment.Append`: stamp `record.Offset = nextOffset`, marshal, append to
the store, write `(uint32(nextOffset - baseOffset), pos)` to the index, and
increment `nextOffset` on success. -/
def Segment.append (s : Segment) (r : Record) : SegAppendOut :=
  let cur := s.nextOffset
  let r' := { r with offset := cur }
  let p := protoMarshal r'
  let out := s.store.append p
  let pos := out.2.1
  let st' := out.2.2
  match s.index.write (sub64 s.nextOffset s.baseOffset % 2 ^ 32) pos with
  | .error e => { res := .error e, seg := { s with store := st' }, record := r' }
  | .ok idx' =>
    { res := .ok cur,
      seg := { s with store := st', index := idx', nextOffset := s.nextOffset + 1 },
      record := r' }

/-- `segment.Read(off)`: index lookup at `int64(off - baseOffset)` (only the
position component is used), store read, unmarshal. -/
def Segment.read (s : Segment) (off : Nat) : Except LogError Record :=
  match s.index.read (i64ofU64 (sub64 off s.baseOffset)) with
  | .error e => .error e
  | .ok e =>
    match s.store.read e.2 with
    | none => .error .eof
    | some p =>
      match protoUnmarshal p with
      | none => .error .decodeFailed
      | some rec => .ok rec

/-- `segment.IsMaxed`. -/
def Segment.isMaxed (s : Segment) : Bool :=
  s.config.maxStoreBytes ≤ s.store.size || s.config.maxIndexBytes ≤ s.index.size

/-! ## The data directory (on-disk state)

A directory entry is `(baseOffset, store file bytes, index file entries)`:
the pair of files `{base}.store` / `{base}.index`. The list order is file
creation order; `Log.setup` sorts the parsed base offsets itself, so the
listing order never matters. While a segment is open its writes are
materialised to the directory on `Close` (store flush + index truncate);
`segment.Remove` unlinks both files.
-/

structure DiskSeg where
  base : Nat
  storeData : List Nat
  indexEntries : List (Nat × Nat)
  deriving DecidableEq, Repr

abbrev Disk := List DiskSeg

def Disk.lookup (d : Disk) (b : Nat) : Option DiskSeg :=
  d.find? (fun e => e.base == b)

def Disk.writeFiles (d : Disk) (e : DiskSeg) : Disk :=
  if d.any (fun x => x.base == e.base) then
    d.map (fun x => if x.base == e.base then e else x)
  else d ++ [e]

def Disk.removeFiles (d : Disk) (b : Nat) : Disk :=
  d.filter (fun x => ¬ x.base == b)

/-- `newSegment(dir, baseOffset, c)`: open-or-create the two files, read the
store size and index entries from them, and reconstruct `nextOffset` from
`index.Read(-1)`: `baseOffset + off + 1` on success, `baseOffset` on error.
Returns the segment and the directory (extended when the files were new). -/
def openSegment (d : Disk) (base : Nat) (c : Config) : Segment × Disk :=
  let (sd, ie, d') :=
    match d.lookup base with
    | some e => (e.storeData, e.indexEntries, d)
    | none => ([], [], d ++ [⟨base, [], []⟩])
  let st : Store := ⟨sd⟩
  let idx : Index := ⟨ie, c.maxIndexBytes⟩
  let nxt :=
    match idx.read (-1) with
    | .error _ => base
    | .ok e => base + e.1 + 1
  (⟨st, idx, base, nxt, c⟩, d')

/-! ## Log (`internal/log/log.go`)

`activeSegment` is a pointer into the `segments` slice. The model keeps an
explicit copy; a mutation of the active segment is written back to the last
position of the list (the position the pointer refers to in every state the
source can reach), and to the copy alone when `Truncate` has emptied the
list and left the pointer dangling.
-/

structure Log where
  dir : Disk
  config : Config
  segments : List Segment
  active : Option Segment
  deriving DecidableEq, Repr

def Log.writeActive (l : Log) (s : Segment) : Log :=
  { l with
    active := some s,
    segments := if l.segments.isEmpty then l.segments else l.segments.dropLast ++ [s] }

/-- `Log.newSegment(off)`: create a segment, append it to the list, make it
active. -/
def Log.addSegment (l : Log) (off : Nat) : Log :=
  let (s, d') := openSegment l.dir off l.config
  { l with dir := d', segments := l.segments ++ [s], active := some s }

/-- The skipping loop of `Log.setup`: `for i := 0; i < len; i++ { use(b[i]); i++ }`
visits the elements at even positions of the sorted slice (each base offset
appears twice in the listing, once per file extension, so this visits each
base once on a well-formed directory). -/
def setupSkip : List Nat → List Nat
  | [] => []
  | [b] => [b]
  | b :: _ :: rest => b :: setupSkip rest

/-- The filename stems of the directory listing: each entry contributes its
base offset twice (`{base}.store` and `{base}.index`). -/
def Disk.listing (d : Disk) : List Nat :=
  d.flatMap (fun e => [e.base, e.base])

/-- `Log.setup`: parse and sort the base offsets, instantiate a segment for
every visited base (note: `setup` appends to whatever `l.segments` already
holds — it never clears the list), and fall back to a single segment at
`InitialOffset` only when the segment list is still empty. -/
def Log.setup (l : Log) : Log :=
  let bases := setupSkip ((Disk.listing l.dir).insertionSort (· ≤ ·))
  let l' := bases.foldl Log.addSegment l
  if l'.segments.isEmpty then l'.addSegment l.config.initialOffset else l'

/-- `NewLog(dir, c)`: apply config defaults and run `setup`. -/
def newLog (d : Disk) (c : Config) : Log :=
  Log.setup { dir := d, config := c.withDefaults, segments := [], active := none }

/-- `Log.Append`: delegate to the active segment; on success roll over to a
new segment at `off + 1` when the active segment is maxed. An error from the
segment append is returned as-is (no rollover on the error path). A `nil`
active segment (never produced by `NewLog`) would be a Go nil-pointer panic;
the model returns `io.EOF` for totality. -/
def Log.append (l : Log) (r : Record) : Except LogError Nat × Log :=
  match l.active with
  | none => (.error .eof, l)
  | some a =>
    let out := a.append r
    match out.res with
    | .error e => (.error e, l.writeActive out.seg)
    | .ok off =>
      let l1 := l.writeActive out.seg
      if out.seg.isMaxed then (.ok off, l1.addSegment (off + 1))
      else (.ok off, l1)

/-- `Log.Read(off)`: find the segment with `baseOffset ≤ off < nextOffset`;
`ErrorOffsetOutOfRange{off}` when none exists (the `s.nextOffset <= off`
re-check of the source is subsumed by the scan condition but kept). -/
def Log.read (l : Log) (off : Nat) : Except LogError Record :=
  match l.segments.find? (fun s => s.baseOffset ≤ off && off < s.nextOffset) with
  | none => .error (.offsetOutOfRange off)
  | some s =>
    if s.nextOffset ≤ off then .error (.offsetOutOfRange off)
    else s.read off

/-- `Log.Close`: close every segment in order — each store flush and index
truncate materialises that segment's in-memory state to its files. The
segment list itself is not cleared. -/
def Log.close (l : Log) : Log :=
  { l with
    dir := l.segments.foldl
      (fun d s => d.writeFiles ⟨s.baseOffset, s.store.data, s.index.entries⟩) l.dir }

/-- `Log.Reset`: `Close` then re-run `setup` (which appends the re-opened
segments to the still-populated list). -/
def Log.reset (l : Log) : Log :=
  l.close.setup

/-- `Log.Truncate(lowest)`: remove (unlink files of) every segment with
`nextOffset ≤ lowest + 1`, retain the rest in order. The active pointer is
not updated. -/
def Log.truncateLoop (lowest : Nat) : List Segment → Disk → List Segment × Disk
  | [], d => ([], d)
  | s :: rest, d =>
    if s.nextOffset ≤ lowest + 1 then
      Log.truncateLoop lowest rest (d.removeFiles s.baseOffset)
    else
      let (ss, d') := Log.truncateLoop lowest rest d
      (s :: ss, d')

def Log.truncate (l : Log) (lowest : Nat) : Log :=
  let (ss, d') := Log.truncateLoop lowest l.segments l.dir
  { l with segments := ss, dir := d' }

/-- `Log.LowestOffset`: `segments[0].baseOffset` (a panic on an empty list in
Go; `none` here). -/
def Log.lowestOffset (l : Log) : Option Nat :=
  l.segments.head?.map (fun s => s.baseOffset)

/-- `Log.HighestOffset`: `off := last.nextOffset; if off == 0 { 0 } else { off-1 }`. -/
def Log.highestOffset (l : Log) : Option Nat :=
  l.segments.getLast?.map (fun s => if s.nextOffset = 0 then 0 else s.nextOffset - 1)

/-! ## The structural invariant of the spec's data model (for claim C6) -/

/-- Adjacent-pair invariant: `s[i].nextOffset == s[i+1].baseOffset` and
strictly increasing base offsets. -/
def chainB : List Segment → Bool
  | [] => true
  | [_] => true
  | a :: b :: rest =>
    (a.nextOffset == b.baseOffset) && (a.baseOffset < b.baseOffset) && chainB (b :: rest)

/-- The spec's structural invariant: non-empty ordered segment list whose
last element is the active segment. -/
def structInv (l : Log) : Bool :=
  (!l.segments.isEmpty) && chainB l.segments && (l.active == l.segments.getLast?)

/-! ## Membership event handling (`internal/discovery`, code shown in
`src/README.md`)

`eventHandler` processes a `serf.EventMemberJoin` by calling
`handleJoin(member)` for every member of the event that is not the local
node; `handleJoin` calls `handler.Join(member.Name, member.Tags["rcp_addr"])`
— note the key actually present in the source. A Go map read of a missing
key yields the zero value `""`.
-/

structure Member where
  name : String
  tags : List (String × String)
  deriving DecidableEq, Repr

/-- Go `member.Tags[k]`: the tag value, or `""` when the key is absent. -/
def tagsGet (tags : List (String × String)) (k : String) : String :=
  ((tags.find? (fun e => e.1 == k)).map (fun e => e.2)).getD ""

/-- The `(name, addr)` arguments passed to `handler.Join` by the
`serf.EventMemberJoin` arm of `MemberShip.eventHandler`, in member order:
members equal to the local node are skipped, and `handleJoin` reads the
`"rcp_addr"` tag (sic — the source misspells `rpc_addr` here). -/
def eventJoinCalls (localName : String) (members : List Member) : List (String × String) :=
  (members.filter (fun m => !(m.name == localName))).map
    (fun m => (m.name, tagsGet m.tags "rcp_addr"))

/-! ## Claim theorems -/

/-- C9 (code bug evaluation): a non-local member advertising its RPC address
under the `rpc_addr` tag — the key the repository's agent and tests set, and
the key `logError` reads — is delivered to `Handler.Join` with the empty
string as its address, because `handleJoin` looks up the misspelled key
`rcp_addr`; the local member is suppressed. -/
theorem membership_join_addr_bug :
    eventJoinCalls "node-0"
      [⟨"node-0", [("rpc_addr", "127.0.0.1:8400")]⟩,
       ⟨"node-1", [("rpc_addr", "127.0.0.1:8401")]⟩] =
      [("node-1", "")] ∧ "" ≠ "127.0.0.1:8401" := by
  constructor
  · rfl
  · decide

/-- C10: `segment.Append` always hands back the caller's record with its
offset field overwritten by the segment's `nextOffset` (stamped before
marshalling, hence also on every failure path, and the value field is left
untouched), while a failing append leaves `nextOffset` itself unchanged. -/
theorem segment_append_mutates_record (s : Segment) (r : Record) :
    (s.append r).record = { r with offset := s.nextOffset } ∧
    (∀ e, (s.append r).res = .error e → (s.append r).seg.nextOffset = s.nextOffset) := by
  unfold Segment.append
  dsimp only
  split
  · simp
  · simp

/-- C10 witness: a concrete failing append (index capacity 6 < 12) at which
the record mutation and the unchanged `nextOffset` are both observable. -/
theorem segment_append_mutates_record_witness :
    ((Segment.mk ⟨[]⟩ ⟨[], 6⟩ 5 5 ⟨1024, 6, 0⟩).append ⟨[104], 0⟩).record =
      { value := [104], offset := 5 } ∧
    ((Segment.mk ⟨[]⟩ ⟨[], 6⟩ 5 5 ⟨1024, 6, 0⟩).append ⟨[104], 0⟩).seg.nextOffset = 5 :=
  ⟨(segment_append_mutates_record (Segment.mk ⟨[]⟩ ⟨[], 6⟩ 5 5 ⟨1024, 6, 0⟩) ⟨[104], 0⟩).1,
   (segment_append_mutates_record (Segment.mk ⟨[]⟩ ⟨[], 6⟩ 5 5 ⟨1024, 6, 0⟩) ⟨[104], 0⟩).2
     .eof (by decide)⟩

/-- C3 counterexample: on the freshly created Log over an empty directory
(a reachable state), `LowestOffset = HighestOffset = 0`, yet `Read(0)` fails
with `ErrorOffsetOutOfRange{0}` — the claim asserts no offset in
`[LowestOffset, HighestOffset]` fails with that error. -/
theorem fresh_log_read_zero_out_of_range :
    (newLog [] ⟨0, 0, 0⟩).read 0 = .error (.offsetOutOfRange 0) ∧
    (newLog [] ⟨0, 0, 0⟩).lowestOffset = some 0 ∧
    (newLog [] ⟨0, 0, 0⟩).highestOffset = some 0 := by
  decide

/-- C5 counterexample: with `MaxIndexBytes = 16` (not a multiple of the
12-byte entry width) the second `Log.Append` hits the index end-of-space
condition: no rollover happens (the segment count stays 1) and `io.EOF` is
returned to the caller, contradicting the claim that the Log recovers by
rolling a new segment and the append succeeds. -/
theorem append_end_of_space_surfaces :
    ((newLog [] ⟨1024, 16, 0⟩).append ⟨[104], 0⟩).1 = .ok 0 ∧
    (((newLog [] ⟨1024, 16, 0⟩).append ⟨[104], 0⟩).2.append ⟨[104], 0⟩).1 = .error .eof ∧
    (((newLog [] ⟨1024, 16, 0⟩).append ⟨[104], 0⟩).2.append ⟨[104], 0⟩).2.segments.length = 1 := by
  decide

/-- C6 counterexample: `Reset` on the fresh Log violates the structural
invariant — `setup` re-opens the on-disk segment and appends it to the
still-populated segment list, so the list holds two segments with equal base
offsets (not strictly increasing). -/
theorem reset_breaks_structural_invariant :
    structInv (newLog [] ⟨0, 0, 0⟩) = true ∧
    structInv (Log.reset (newLog [] ⟨0, 0, 0⟩)) = false ∧
    (Log.reset (newLog [] ⟨0, 0, 0⟩)).segments.length = 2 := by
  decide

/-! ## Store lemmas: read-your-write and stability under later appends -/

theorem take_drop_append {a b : List Nat} {pos k : Nat} (h : pos + k ≤ a.length) :
    ((a ++ b).drop pos).take k = (a.drop pos).take k := by
  rw [List.drop_append_of_le_length (by omega : pos ≤ a.length)]
  rw [List.take_append_of_le_length (by simp; omega : k ≤ (a.drop pos).length)]

theorem Store.read_append_self (s : Store) (p : List Nat) (hp : p.length < 2 ^ 64) :
    (s.append p).2.2.read s.size = some p := by
  unfold Store.append Store.read Store.size
  simp only
  rw [if_neg (by simp [u64beBytes]; try omega)]
  rw [List.append_assoc]
  rw [List.drop_append_of_le_length (le_refl _)]
  rw [List.drop_length]
  simp only [List.nil_append]
  rw [List.take_append_of_le_length (by simp [u64beBytes] : 8 ≤ (u64beBytes p.length).length)]
  rw [show (u64beBytes p.length).take 8 = u64beBytes p.length by
    simp [u64beBytes]]
  rw [beDecode_u64beBytes, Nat.mod_eq_of_lt hp]
  rw [if_neg (by simp [u64beBytes]; try omega)]
  have hlen : s.data.length + 8 = (s.data ++ u64beBytes p.length).length := by
    simp [u64beBytes]
  rw [show s.data ++ (u64beBytes p.length ++ p) = (s.data ++ u64beBytes p.length) ++ p by
    simp]
  rw [hlen, List.drop_append_of_le_length (le_refl _), List.drop_length]
  simp

theorem Store.read_append_mono (s : Store) (p : List Nat) {pos : Nat} {v : List Nat}
    (h : s.read pos = some v) : (s.append p).2.2.read pos = some v := by
  unfold Store.read at h
  by_cases h1 : s.data.length < pos + 8
  · rw [if_pos h1] at h
    cases h
  · rw [if_neg h1] at h
    unfold Store.append Store.read
    simp only
    rw [if_neg (by simp; omega)]
    rw [List.append_assoc]
    rw [take_drop_append (by omega : pos + 8 ≤ s.data.length)]
    by_cases h2 : s.data.length < pos + 8 + beDecode ((s.data.drop pos).take 8)
    · rw [if_pos h2] at h
      cases h
    · rw [if_neg h2] at h
      rw [if_neg (by simp; omega)]
      rw [take_drop_append (by omega : (pos + 8) + beDecode ((s.data.drop pos).take 8) ≤ s.data.length)]
      exact h

/-- `Store.read` only succeeds inside the flushed data. -/
theorem Store.read_pos_lt {s : Store} {pos : Nat} {v : List Nat}
    (h : s.read pos = some v) : pos + 8 ≤ s.data.length := by
  unfold Store.read at h
  by_cases h1 : s.data.length < pos + 8
  · rw [if_pos h1] at h
    cases h
  · omega

/-! ## Size bounds for marshalled records -/

theorem varintEnc_length_le (k : Nat) : ∀ n, n < 128 ^ k → 0 < k → (varintEnc n).length ≤ k := by
  induction k with
  | zero => intro n h hk; omega
  | succ k ih =>
    intro n h _
    rw [varintEnc_eq]
    by_cases h128 : n < 128
    · simp [h128]
    · rw [if_neg h128]
      simp only [List.length_cons]
      cases k with
      | zero =>
        simp [pow_succ] at h
        omega
      | succ k =>
        have hdiv : n / 128 < 128 ^ (k + 1) := by
          rw [Nat.div_lt_iff_lt_mul (by omega : 0 < 128)]
          calc n < 128 ^ (k + 1 + 1) := h
          _ = 128 ^ (k + 1) * 128 := by ring
        have := ih (n / 128) hdiv (by omega)
        omega

theorem protoMarshal_length_le (r : Record) (hv : r.value.length < 2 ^ 64)
    (ho : r.offset < 2 ^ 63) : (protoMarshal r).length ≤ r.value.length + 21 := by
  have h1 : (varintEnc r.value.length).length ≤ 10 :=
    varintEnc_length_le 10 r.value.length (by norm_num at hv ⊢; omega) (by omega)
  have h2 : (varintEnc r.offset).length ≤ 9 :=
    varintEnc_length_le 9 r.offset (by norm_num at ho ⊢; omega) (by omega)
  unfold protoMarshal
  by_cases hvv : r.value = [] <;> by_cases hoo : r.offset = 0 <;>
    simp [hvv, hoo] <;> omega

/-! ## The per-segment content invariant

`SegOK s vals` says the segment's index and store faithfully record the
payloads `vals`: entry `j` holds relative offset `j` (as written, truncated
to 32 bits) and a store position where the marshalled record
`⟨vals[j], baseOffset + j⟩` can be read back.
-/

structure SegOK (s : Segment) (vals : List (List Nat)) : Prop where
  next_eq : s.nextOffset = s.baseOffset + vals.length
  next_lt : s.nextOffset < 2 ^ 63
  data_lt : s.store.data.length < 2 ^ 64
  entries_len : s.index.entries.length = vals.length
  cap_ok : 12 * s.index.entries.length ≤ s.index.cap
  cap_cfg : s.index.cap = s.config.maxIndexBytes
  entry : ∀ j v, vals.get? j = some v →
    ∃ p, s.index.entries.get? j = some (j % 2 ^ 32, p) ∧
      s.store.read p = some (protoMarshal ⟨v, s.baseOffset + j⟩)

theorem SegOK.base_le {s : Segment} {vals : List (List Nat)} (h : SegOK s vals) :
    s.baseOffset ≤ s.nextOffset := by
  rw [h.next_eq]
  omega

theorem SegOK.read_ok {s : Segment} {vals : List (List Nat)} (h : SegOK s vals)
    (hcap32 : s.config.maxIndexBytes < 12 * 2 ^ 32)
    {j : Nat} {v : List Nat} (hj : vals.get? j = some v) :
    s.read (s.baseOffset + j) = .ok ⟨v, s.baseOffset + j⟩ := by
  obtain ⟨p, he, hr⟩ := h.entry j v hj
  have hjlen : j < vals.length := by
    by_contra hc
    rw [List.get?_eq_none.mpr (by omega)] at hj
    cases hj
  have hlen32 : vals.length < 2 ^ 32 := by
    have := h.cap_ok
    rw [h.entries_len, h.cap_cfg] at this
    omega
  have hj32 : j < 2 ^ 32 := by omega
  have hoff_lt : s.baseOffset + j < 2 ^ 63 := by
    have := h.next_eq
    have := h.next_lt
    omega
  unfold Segment.read
  rw [sub64_of_le (by omega) (by omega), Nat.add_sub_cancel_left]
  rw [i64ofU64_of_lt (by omega)]
  unfold Index.read Index.size
  rw [if_neg (by rw [h.entries_len]; omega)]
  simp only
  rw [if_neg (by omega : ¬ ((j : Int) = -1))]
  have hout : ((j : Int) % (2 ^ 32 : Int)).toNat = j := by
    have hmod : ((j : Int) % (2 ^ 32 : Int)) = ((j % 2 ^ 32 : Nat) : Int) := by
      omega
    rw [hmod, Int.toNat_natCast, Nat.mod_eq_of_lt hj32]
  rw [hout]
  rw [if_neg (by rw [h.entries_len]; omega)]
  rw [he]
  simp only
  rw [hr]
  simp [protoUnmarshal_marshal]

/-! ## Segment append preservation -/

theorem SegOK.append_ok {s : Segment} {vals : List (List Nat)} {r : Record}
    (h : SegOK s vals)
    (hv : r.value.length < 2 ^ 64)
    (hsz : s.store.data.length + r.value.length + 30 < 2 ^ 64)
    (hnlt : s.nextOffset + 1 < 2 ^ 63)
    (hroom : s.index.size + 12 ≤ s.index.cap) :
    (s.append r).res = .ok s.nextOffset ∧
    SegOK (s.append r).seg (vals ++ [r.value]) ∧
    (s.append r).seg.baseOffset = s.baseOffset ∧
    (s.append r).seg.nextOffset = s.nextOffset + 1 ∧
    (s.append r).seg.config = s.config := by
  have hmlen : (protoMarshal { value := r.value, offset := s.nextOffset }).length ≤
      r.value.length + 21 :=
    protoMarshal_length_le _ hv (by show s.nextOffset < 2 ^ 63; exact h.next_lt)
  have hsub : sub64 s.nextOffset s.baseOffset = vals.length := by
    rw [sub64_of_le h.base_le (by have := h.next_lt; omega), h.next_eq]
    omega
  have hwrite : s.index.write (sub64 s.nextOffset s.baseOffset % 2 ^ 32)
      (s.store.append (protoMarshal { value := r.value, offset := s.nextOffset })).2.1 =
      .ok { s.index with entries := s.index.entries ++
        [(vals.length % 2 ^ 32, s.store.data.length)] } := by
    unfold Index.write
    rw [if_neg (by omega)]
    rw [hsub, Nat.mod_mod_of_dvd _ (dvd_refl _)]
    unfold Store.append Store.size
    simp only
    rw [Nat.mod_eq_of_lt h.data_lt]
  unfold Segment.append
  simp only
  rw [hwrite]
  refine ⟨rfl, ?_, rfl, rfl, rfl⟩
  constructor
  case next_eq => simp [h.next_eq]; omega
  case next_lt => exact hnlt
  case data_lt =>
    unfold Store.append
    simp only [List.length_append, u64beBytes_length]
    omega
  case entries_len => simp [h.entries_len]
  case cap_ok =>
    simp only [List.length_append, List.length_singleton]
    have := h.cap_ok
    unfold Index.size at hroom
    omega
  case cap_cfg => exact h.cap_cfg
  case entry =>
    intro j v hj
    by_cases hjl : j < vals.length
    · have hjv : vals.get? j = some v := by
        rw [List.get?_append hjl] at hj
        exact hj
      obtain ⟨p, he, hr⟩ := h.entry j v hjv
      refine ⟨p, ?_, ?_⟩
      · rw [List.get?_append (by rw [h.entries_len]; omega)]
        exact he
      · exact Store.read_append_mono _ _ hr
    · have hjeq : j = vals.length := by
        have : j < (vals ++ [r.value]).length := by
          by_contra hc
          rw [List.get?_eq_none.mpr (by omega)] at hj
          cases hj
        simp at this
        omega
      subst hjeq
      have hv' : v = r.value := by
        rw [List.get?_concat_length] at hj
        cases hj
        rfl
      subst hv'
      refine ⟨s.store.data.length, ?_, ?_⟩
      · rw [show vals.length = s.index.entries.length from h.entries_len.symm]
        rw [List.get?_concat_length]
      · have := Store.read_append_self s.store
          (protoMarshal { value := r.value, offset := s.nextOffset }) (by omega)
        unfold Store.size at this
        rw [show s.baseOffset + vals.length = s.nextOffset from by rw [h.next_eq]]
        exact this

theorem SegOK.append_err {s : Segment} {vals : List (List Nat)} {r : Record}
    (h : SegOK s vals)
    (hv : r.value.length < 2 ^ 64)
    (hsz : s.store.data.length + r.value.length + 30 < 2 ^ 64)
    (hfull : s.index.cap < s.index.size + 12) :
    (s.append r).res = .error .eof ∧
    SegOK (s.append r).seg vals ∧
    (s.append r).seg.baseOffset = s.baseOffset ∧
    (s.append r).seg.nextOffset = s.nextOffset ∧
    (s.append r).seg.config = s.config ∧
    (s.append r).seg.index = s.index := by
  have hmlen : (protoMarshal { value := r.value, offset := s.nextOffset }).length ≤
      r.value.length + 21 :=
    protoMarshal_length_le _ hv (by show s.nextOffset < 2 ^ 63; exact h.next_lt)
  have hwrite : s.index.write (sub64 s.nextOffset s.baseOffset % 2 ^ 32)
      (s.store.append (protoMarshal { value := r.value, offset := s.nextOffset })).2.1 =
      .error .eof := by
    unfold Index.write
    rw [if_pos (by omega)]
  unfold Segment.append
  simp only
  rw [hwrite]
  refine ⟨rfl, ?_, rfl, rfl, rfl, rfl⟩
  constructor
  case next_eq => exact h.next_eq
  case next_lt => exact h.next_lt
  case data_lt =>
    unfold Store.append
    simp only [List.length_append, u64beBytes_length]
    omega
  case entries_len => exact h.entries_len
  case cap_ok => exact h.cap_ok
  case cap_cfg => exact h.cap_cfg
  case entry =>
    intro j v hj
    obtain ⟨p, he, hr⟩ := h.entry j v hj
    exact ⟨p, he, Store.read_append_mono _ _ hr⟩

/-! ## The segment-chain invariant

`SegChain segs vss` captures the spec's Log data-model invariant for the
segment list: every segment satisfies `SegOK`, adjacent segments satisfy
`s[i].nextOffset == s[i+1].baseOffset`, and every non-last segment is
non-empty (which makes base offsets strictly increasing).
-/

def headBase (segs : List Segment) : Nat :=
  match segs.head? with
  | some s => s.baseOffset
  | none => 0

def lastNext (segs : List Segment) : Nat :=
  match segs.getLast? with
  | some s => s.nextOffset
  | none => 0

inductive SegChain : List Segment → List (List (List Nat)) → Prop where
  | last (s : Segment) (vs : List (List Nat)) (h : SegOK s vs) : SegChain [s] [vs]
  | cons (s : Segment) (vs : List (List Nat)) (rest : List Segment)
      (vss : List (List (List Nat)))
      (h : SegOK s vs) (hne : s.baseOffset < s.nextOffset)
      (hlink : headBase rest = s.nextOffset)
      (hrest : SegChain rest vss) : SegChain (s :: rest) (vs :: vss)

theorem SegChain.ne_nil {segs : List Segment} {vss : List (List (List Nat))}
    (h : SegChain segs vss) : segs ≠ [] := by
  cases h <;> simp

theorem headBase_cons (s : Segment) (rest : List Segment) :
    headBase (s :: rest) = s.baseOffset := rfl

theorem lastNext_cons_of_ne {s : Segment} {rest : List Segment} (h : rest ≠ []) :
    lastNext (s :: rest) = lastNext rest := by
  cases rest with
  | nil => contradiction
  | cons b l =>
    unfold lastNext
    rw [List.getLast?_cons_cons]

theorem SegChain.headBase_le_lastNext {segs : List Segment} {vss : List (List (List Nat))}
    (h : SegChain segs vss) : headBase segs ≤ lastNext segs := by
  induction h with
  | last s vs hs =>
    unfold headBase lastNext
    simp
    exact hs.base_le
  | cons s vs rest vss hs hne hlink hrest ih =>
    rw [headBase_cons, lastNext_cons_of_ne hrest.ne_nil]
    omega

theorem SegChain.flatten_len {segs : List Segment} {vss : List (List (List Nat))}
    (h : SegChain segs vss) : headBase segs + vss.flatten.length = lastNext segs := by
  induction h with
  | last s vs hs =>
    unfold headBase lastNext
    simp
    rw [hs.next_eq]
  | cons s vs rest vss hs hne hlink hrest ih =>
    rw [headBase_cons, lastNext_cons_of_ne hrest.ne_nil]
    rw [List.flatten_cons, List.length_append]
    have := hs.next_eq
    omega

theorem SegChain.next_le_lastNext {segs : List Segment} {vss : List (List (List Nat))}
    (h : SegChain segs vss) : ∀ s ∈ segs, s.nextOffset ≤ lastNext segs := by
  induction h with
  | last s vs hs =>
    intro t ht
    simp at ht
    subst ht
    unfold lastNext
    simp
  | cons s vs rest vss hs hne hlink hrest ih =>
    intro t ht
    rw [lastNext_cons_of_ne hrest.ne_nil]
    rcases List.mem_cons.mp ht with h1 | h1
    · subst h1
      have := hrest.headBase_le_lastNext
      omega
    · exact ih t h1

theorem SegChain.base_le_next_of_mem {segs : List Segment} {vss : List (List (List Nat))}
    (h : SegChain segs vss) : ∀ s ∈ segs, s.baseOffset ≤ s.nextOffset := by
  induction h with
  | last s vs hs =>
    intro t ht
    simp at ht
    subst ht
    exact hs.base_le
  | cons s vs rest vss hs hne hlink hrest ih =>
    intro t ht
    rcases List.mem_cons.mp ht with h1 | h1
    · subst h1
      exact hs.base_le
    · exact ih t h1

theorem SegChain.base_le_lastNext {segs : List Segment} {vss : List (List (List Nat))}
    (h : SegChain segs vss) : ∀ s ∈ segs, s.baseOffset ≤ lastNext segs := by
  intro t ht
  have h1 := h.next_le_lastNext t ht
  have h2 := h.base_le_next_of_mem t ht
  omega

theorem SegChain.find_in_range {segs : List Segment} {vss : List (List (List Nat))}
    (h : SegChain segs vss)
    (hcap : ∀ s ∈ segs, s.config.maxIndexBytes < 12 * 2 ^ 32)
    {o : Nat} (ho1 : headBase segs ≤ o) (ho2 : o < lastNext segs) :
    ∃ s v, segs.find? (fun s => s.baseOffset ≤ o && o < s.nextOffset) = some s ∧
      o < s.nextOffset ∧
      vss.flatten.get? (o - headBase segs) = some v ∧
      s.read o = .ok ⟨v, o⟩ := by
  induction h with
  | last s vs hs =>
    unfold headBase at ho1
    unfold lastNext at ho2
    simp at ho1 ho2
    have hcond : (fun s => decide (s.baseOffset ≤ o) && decide (o < s.nextOffset)) s = true := by
      simp
      omega
    have hj : o - s.baseOffset < vs.length := by
      have := hs.next_eq
      omega
    obtain ⟨v, hv⟩ : ∃ v, vs.get? (o - s.baseOffset) = some v := by
      cases hvv : vs.get? (o - s.baseOffset) with
      | none =>
        rw [List.get?_eq_none] at hvv
        omega
      | some v => exact ⟨v, rfl⟩
    refine ⟨s, v, ?_, by omega, ?_, ?_⟩
    · simp [List.find?, hcond]
    · rw [show headBase [s] = s.baseOffset from rfl]
      rw [List.flatten_cons, List.flatten_nil, List.append_nil]
      exact hv
    · have := hs.read_ok (hcap s (by simp)) hv
      rw [show s.baseOffset + (o - s.baseOffset) = o from by omega] at this
      exact this
  | cons s vs rest vss hs hne hlink hrest ih =>
    rw [headBase_cons] at ho1
    rw [lastNext_cons_of_ne hrest.ne_nil] at ho2
    by_cases hin : o < s.nextOffset
    · have hcond : (fun s => decide (s.baseOffset ≤ o) && decide (o < s.nextOffset)) s = true := by
        simp
        omega
      have hj : o - s.baseOffset < vs.length := by
        have := hs.next_eq
        omega
      obtain ⟨v, hv⟩ : ∃ v, vs.get? (o - s.baseOffset) = some v := by
        cases hvv : vs.get? (o - s.baseOffset) with
        | none =>
          rw [List.get?_eq_none] at hvv
          omega
        | some v => exact ⟨v, rfl⟩
      refine ⟨s, v, ?_, by omega, ?_, ?_⟩
      · simp [List.find?, hcond]
      · rw [headBase_cons, List.flatten_cons]
        rw [List.get?_append hj]
        exact hv
      · have := hs.read_ok (hcap s (by simp)) hv
        rw [show s.baseOffset + (o - s.baseOffset) = o from by omega] at this
        exact this
    · have hcond : (decide (s.baseOffset ≤ o) && decide (o < s.nextOffset)) = false := by
        simp
        omega
      obtain ⟨t, v, hfind, htn, hflat, hread⟩ :=
        ih (fun u hu => hcap u (by simp [hu])) (by omega) ho2
      refine ⟨t, v, ?_, htn, ?_, hread⟩
      · rw [List.find?_cons, hcond]
        exact hfind
      · rw [headBase_cons, List.flatten_cons]
        have hlen : vs.length = s.nextOffset - s.baseOffset := by
          have := hs.next_eq
          omega
        rw [List.get?_append_right (by omega)]
        rw [show o - s.baseOffset - vs.length = o - headBase rest from by omega]
        exact hflat

theorem SegChain.find_out_of_range {segs : List Segment} {vss : List (List (List Nat))}
    (h : SegChain segs vss)
    {o : Nat} (ho : o < headBase segs ∨ lastNext segs ≤ o) :
    segs.find? (fun s => s.baseOffset ≤ o && o < s.nextOffset) = none := by
  induction h with
  | last s vs hs =>
    unfold headBase lastNext at ho
    simp at ho
    have hcond : (fun s => decide (s.baseOffset ≤ o) && decide (o < s.nextOffset)) s = false := by
      simp
      rcases ho with h1 | h1
      · omega
      · omega
    simp [List.find?, hcond]
  | cons s vs rest vss hs hne hlink hrest ih =>
    rw [headBase_cons] at ho
    rw [lastNext_cons_of_ne hrest.ne_nil] at ho
    have hhl := hrest.headBase_le_lastNext
    have hcond : (decide (s.baseOffset ≤ o) && decide (o < s.nextOffset)) = false := by
      simp
      rcases ho with h1 | h1
      · omega
      · omega
    rw [List.find?_cons, hcond]
    apply ih
    rcases ho with h1 | h1
    · left
      omega
    · right
      omega

/-! ## The full Log invariant -/

structure LogOK (l : Log) (vss : List (List (List Nat))) : Prop where
  chain : SegChain l.segments vss
  active_last : l.active = l.segments.getLast?
  dir_bases : l.dir.map (fun e => e.base) = l.segments.map (fun s => s.baseOffset)
  cfg_each : ∀ s ∈ l.segments, s.config = l.config
  cfg_store : l.config.maxStoreBytes ≠ 0
  cfg_index : l.config.maxIndexBytes ≠ 0

theorem lastNext_of_getLast {segs : List Segment} {a : Segment}
    (h : segs.getLast? = some a) : lastNext segs = a.nextOffset := by
  unfold lastNext
  rw [h]

theorem headBase_append_of_ne {segs : List Segment} (xs : List Segment) (h : segs ≠ []) :
    headBase (segs ++ xs) = headBase segs := by
  unfold headBase
  rw [List.head?_append_of_ne_nil _ h]

theorem headBase_replace_last {segs : List Segment} {a b : Segment}
    (ha : segs.getLast? = some a) (hb : b.baseOffset = a.baseOffset) :
    headBase (segs.dropLast ++ [b]) = headBase segs := by
  cases segs with
  | nil => cases ha
  | cons s rest =>
    cases rest with
    | nil =>
      simp at ha
      subst ha
      simp [headBase, hb]
    | cons t u =>
      rw [show ((s :: t :: u).dropLast ++ [b]) = s :: ((t :: u).dropLast ++ [b]) from by simp]
      rw [headBase_cons, headBase_cons]

theorem LogOK.read_in_range {l : Log} {vss : List (List (List Nat))}
    (h : LogOK l vss) (hcap32 : l.config.maxIndexBytes < 12 * 2 ^ 32)
    {o : Nat} (ho1 : headBase l.segments ≤ o) (ho2 : o < lastNext l.segments) :
    ∃ v, vss.flatten.get? (o - headBase l.segments) = some v ∧
      l.read o = .ok ⟨v, o⟩ := by
  obtain ⟨s, v, hfind, hnext, hflat, hread⟩ :=
    h.chain.find_in_range (fun s hs => by rw [h.cfg_each s hs]; exact hcap32) ho1 ho2
  refine ⟨v, hflat, ?_⟩
  unfold Log.read
  rw [hfind]
  exact (by rw [if_neg (by omega : ¬ s.nextOffset ≤ o)]; exact hread :
    (if s.nextOffset ≤ o then Except.error (LogError.offsetOutOfRange o) else s.read o) =
      Except.ok ⟨v, o⟩)

theorem LogOK.read_out_of_range {l : Log} {vss : List (List (List Nat))}
    (h : LogOK l vss) {o : Nat} (ho : o < headBase l.segments ∨ lastNext l.segments ≤ o) :
    l.read o = .error (.offsetOutOfRange o) := by
  unfold Log.read
  rw [h.chain.find_out_of_range ho]

theorem getLast?_cons_of_ne {α : Type} {a : α} {s : α} {rest : List α}
    (h : rest ≠ []) (h2 : rest.getLast? = some a) : (s :: rest).getLast? = some a := by
  cases rest with
  | nil => contradiction
  | cons t u =>
    rw [List.getLast?_cons_cons]
    exact h2

theorem SegChain.length_eq {segs : List Segment} {vss : List (List (List Nat))}
    (h : SegChain segs vss) : vss.length = segs.length := by
  induction h with
  | last s vs hs => rfl
  | cons s vs rest vss hs hne hlink hrest ih => simp [ih]

theorem SegChain.vss_ne_nil {segs : List Segment} {vss : List (List (List Nat))}
    (h : SegChain segs vss) : vss ≠ [] := by
  cases h <;> simp

theorem SegChain.getLast_ok {segs : List Segment} {vss : List (List (List Nat))}
    (h : SegChain segs vss) :
    ∃ a avs, segs.getLast? = some a ∧ vss.getLast? = some avs ∧ SegOK a avs := by
  induction h with
  | last s vs hs => exact ⟨s, vs, rfl, rfl, hs⟩
  | cons s vs rest vss hs hne hlink hrest ih =>
    obtain ⟨a, avs, h1, h2, h3⟩ := ih
    exact ⟨a, avs, getLast?_cons_of_ne hrest.ne_nil h1,
      getLast?_cons_of_ne hrest.vss_ne_nil h2, h3⟩

theorem SegChain.replace_last {segs : List Segment} {vss : List (List (List Nat))}
    {a b : Segment} {avs bvs : List (List Nat)}
    (h : SegChain segs vss) (ha : segs.getLast? = some a) (hvs : vss.getLast? = some avs)
    (hb : SegOK b bvs) (hbase : b.baseOffset = a.baseOffset) :
    SegChain (segs.dropLast ++ [b]) (vss.dropLast ++ [bvs]) := by
  induction h generalizing a avs with
  | last s vs hs =>
    cases ha
    cases hvs
    exact SegChain.last b bvs hb
  | cons s vs rest vss hs hne hlink hrest ih =>
    have ha' : rest.getLast? = some a := by
      cases rest with
      | nil => exact absurd rfl hrest.ne_nil
      | cons t u =>
        rw [List.getLast?_cons_cons] at ha
        exact ha
    have hvs' : vss.getLast? = some avs := by
      cases hvss : vss with
      | nil => exact absurd hvss hrest.vss_ne_nil
      | cons t u =>
        subst hvss
        rw [List.getLast?_cons_cons] at hvs
        exact hvs
    have hdrop : (s :: rest).dropLast = s :: rest.dropLast := by
      cases rest with
      | nil => exact absurd rfl hrest.ne_nil
      | cons t u => simp
    have hdropv : (vs :: vss).dropLast = vs :: vss.dropLast := by
      cases hvss : vss with
      | nil => exact absurd hvss hrest.vss_ne_nil
      | cons t u => simp
    rw [hdrop, hdropv, List.cons_append, List.cons_append]
    refine SegChain.cons s vs _ _ hs hne ?_ (ih ha' hvs' hbase)
    rw [headBase_replace_last ha' hbase]
    exact hlink

theorem SegChain.snoc_fresh {segs : List Segment} {vss : List (List (List Nat))}
    {f : Segment} {a : Segment}
    (h : SegChain segs vss) (hf : SegOK f [])
    (ha : segs.getLast? = some a) (hstrict : a.baseOffset < a.nextOffset)
    (hbase : f.baseOffset = lastNext segs) :
    SegChain (segs ++ [f]) (vss ++ [[]]) := by
  induction h generalizing a with
  | last s vs hs =>
    cases ha
    refine SegChain.cons s vs [f] [[]] hs hstrict ?_ (SegChain.last f [] hf)
    rw [headBase_cons, hbase, lastNext_of_getLast (show ([s] : List Segment).getLast? = some s from rfl)]
  | cons s vs rest vss hs hne hlink hrest ih =>
    have ha' : rest.getLast? = some a := by
      cases rest with
      | nil => exact absurd rfl hrest.ne_nil
      | cons t u =>
        rw [List.getLast?_cons_cons] at ha
        exact ha
    rw [List.cons_append, List.cons_append]
    refine SegChain.cons s vs _ _ hs hne ?_ ?_
    · rw [headBase_append_of_ne _ hrest.ne_nil]
      exact hlink
    · rw [lastNext_cons_of_ne hrest.ne_nil] at hbase
      exact ih ha' hstrict hbase

/-! ## Log-level append preservation -/

theorem openSegment_fresh {d : Disk} {base : Nat} {c : Config}
    (hmiss : d.lookup base = none) :
    openSegment d base c =
      (⟨⟨[]⟩, ⟨[], c.maxIndexBytes⟩, base, base, c⟩, d ++ [⟨base, [], []⟩]) := by
  unfold openSegment
  rw [hmiss]
  rfl

theorem LogOK.lookup_miss {l : Log} {vss : List (List (List Nat))}
    (h : LogOK l vss) {b : Nat} (hb : lastNext l.segments < b) :
    l.dir.lookup b = none := by
  unfold Disk.lookup
  rw [List.find?_eq_none]
  intro e he
  have hmem : e.base ∈ l.segments.map (fun s => s.baseOffset) := by
    rw [← h.dir_bases]
    exact List.mem_map_of_mem _ he
  obtain ⟨s, hs, hsb⟩ := List.mem_map.mp hmem
  have := h.chain.base_le_lastNext s hs
  simp only [beq_iff_eq]
  omega

theorem LogOK.append_ok_inv {l : Log} {vss : List (List (List Nat))} {r : Record}
    {a : Segment} {avs : List (List Nat)}
    (h : LogOK l vss) (ha : l.segments.getLast? = some a)
    (havs : vss.getLast? = some avs) (haok : SegOK a avs)
    (hv : r.value.length < 2 ^ 64)
    (hsz : a.store.data.length + r.value.length + 30 < 2 ^ 64)
    (hnlt : lastNext l.segments + 1 < 2 ^ 63)
    (hroom : a.index.size + 12 ≤ a.index.cap) :
    ∃ l', l.append r = (.ok (lastNext l.segments), l') ∧
      ∃ vss', LogOK l' vss' ∧
        vss'.flatten = vss.flatten ++ [r.value] ∧
        headBase l'.segments = headBase l.segments ∧
        lastNext l'.segments = lastNext l.segments + 1 ∧
        (∀ b, l'.segments.getLast? = some b → b.isMaxed = false) := by
  have hact : l.active = some a := by rw [h.active_last, ha]
  have hln : lastNext l.segments = a.nextOffset := lastNext_of_getLast ha
  have hnlt' : a.nextOffset + 1 < 2 ^ 63 := by omega
  have happ := haok.append_ok hv hsz hnlt' hroom
  have hie : l.segments.isEmpty = false := List.isEmpty_eq_false.mpr h.chain.ne_nil
  have hamem : a ∈ l.segments := List.mem_of_mem_getLast? ha
  have hdec : l.segments.dropLast ++ [a] = l.segments :=
    List.dropLast_append_getLast? a ha
  have hdecv : vss.dropLast ++ [avs] = vss :=
    List.dropLast_append_getLast? avs havs
  have hl1 : l.writeActive (a.append r).seg =
      { dir := l.dir, config := l.config,
        segments := l.segments.dropLast ++ [(a.append r).seg],
        active := some (a.append r).seg } := by
    unfold Log.writeActive
    rw [hie]
    rfl
  have hchain1 : SegChain (l.segments.dropLast ++ [(a.append r).seg])
      (vss.dropLast ++ [avs ++ [r.value]]) :=
    h.chain.replace_last ha havs happ.2.1 happ.2.2.1
  have hmapbase : (l.segments.dropLast ++ [(a.append r).seg]).map (fun s => s.baseOffset) =
      l.segments.map (fun s => s.baseOffset) := by
    conv_rhs => rw [← hdec]
    simp [happ.2.2.1]
  have hflat1 : (vss.dropLast ++ [avs ++ [r.value]]).flatten = vss.flatten ++ [r.value] := by
    conv_rhs => rw [← hdecv]
    simp
  have hhead1 : headBase (l.segments.dropLast ++ [(a.append r).seg]) = headBase l.segments :=
    headBase_replace_last ha happ.2.2.1
  have hcfg1 : ∀ s ∈ l.segments.dropLast ++ [(a.append r).seg], s.config = l.config := by
    intro s hs
    rcases List.mem_append.mp hs with h1 | h1
    · exact h.cfg_each s (List.mem_of_mem_dropLast h1)
    · simp at h1
      subst h1
      rw [happ.2.2.2.2]
      exact h.cfg_each a hamem
  cases hmax : (a.append r).seg.isMaxed with
  | false =>
    have heq : l.append r = (.ok a.nextOffset, l.writeActive (a.append r).seg) := by
      unfold Log.append
      rw [hact]
      simp only
      rw [happ.1]
      simp only
      rw [hmax]
      rfl
    rw [hln]
    refine ⟨_, heq, vss.dropLast ++ [avs ++ [r.value]], ?_, ?_, ?_, ?_, ?_⟩
    · constructor
      case chain => rw [hl1]; exact hchain1
      case active_last => rw [hl1]; simp [List.getLast?_concat]
      case dir_bases => rw [hl1]; simp only; rw [hmapbase]; exact h.dir_bases
      case cfg_each => rw [hl1]; exact hcfg1
      case cfg_store => rw [hl1]; exact h.cfg_store
      case cfg_index => rw [hl1]; exact h.cfg_index
    · exact hflat1
    · rw [hl1]
      exact hhead1
    · rw [hl1]
      simp only
      rw [lastNext_of_getLast (List.getLast?_concat _), happ.2.2.2.1]
    · intro b hb
      rw [hl1] at hb
      simp only [List.getLast?_concat] at hb
      cases hb
      exact hmax
  | true =>
    have hmiss : l.dir.lookup (a.nextOffset + 1) = none :=
      h.lookup_miss (by omega)
    have hfresh := openSegment_fresh (c := l.config) hmiss
    have hseg1ne : l.segments.dropLast ++ [(a.append r).seg] ≠ [] := by simp
    have heq : l.append r =
        (.ok a.nextOffset, (l.writeActive (a.append r).seg).addSegment (a.nextOffset + 1)) := by
      unfold Log.append
      rw [hact]
      simp only
      rw [happ.1]
      simp only
      rw [hmax]
      rfl
    have hl2 : (l.writeActive (a.append r).seg).addSegment (a.nextOffset + 1) =
        { dir := l.dir ++ [⟨a.nextOffset + 1, [], []⟩], config := l.config,
          segments := (l.segments.dropLast ++ [(a.append r).seg]) ++
            [⟨⟨[]⟩, ⟨[], l.config.maxIndexBytes⟩, a.nextOffset + 1, a.nextOffset + 1, l.config⟩],
          active := some ⟨⟨[]⟩, ⟨[], l.config.maxIndexBytes⟩, a.nextOffset + 1,
            a.nextOffset + 1, l.config⟩ } := by
      rw [hl1]
      unfold Log.addSegment
      simp only
      rw [hfresh]
    have hfok : SegOK (⟨⟨[]⟩, ⟨[], l.config.maxIndexBytes⟩, a.nextOffset + 1,
        a.nextOffset + 1, l.config⟩ : Segment) [] := by
      constructor
      case next_eq => simp
      case next_lt => exact hnlt'
      case data_lt => simp
      case entries_len => rfl
      case cap_ok => simp [Index.size]
      case cap_cfg => rfl
      case entry => intro j v hj; cases hj
    have hchain2 : SegChain ((l.segments.dropLast ++ [(a.append r).seg]) ++
        [⟨⟨[]⟩, ⟨[], l.config.maxIndexBytes⟩, a.nextOffset + 1, a.nextOffset + 1, l.config⟩])
        ((vss.dropLast ++ [avs ++ [r.value]]) ++ [[]]) := by
      apply hchain1.snoc_fresh hfok (List.getLast?_concat _)
      · rw [happ.2.2.1, happ.2.2.2.1]
        have := haok.base_le
        omega
      · rw [lastNext_of_getLast (List.getLast?_concat _), happ.2.2.2.1]
    rw [hln]
    refine ⟨_, heq, (vss.dropLast ++ [avs ++ [r.value]]) ++ [[]], ?_, ?_, ?_, ?_, ?_⟩
    · constructor
      case chain => rw [hl2]; exact hchain2
      case active_last => rw [hl2]; simp [List.getLast?_concat]
      case dir_bases =>
        rw [hl2]
        simp only
        rw [List.map_append, List.map_append, hmapbase, h.dir_bases]
        simp
      case cfg_each =>
        rw [hl2]
        intro s hs
        rcases List.mem_append.mp hs with h1 | h1
        · exact hcfg1 s h1
        · simp at h1
          subst h1
          rfl
      case cfg_store => rw [hl2]; exact h.cfg_store
      case cfg_index => rw [hl2]; exact h.cfg_index
    · rw [List.flatten_append, hflat1]
      simp
    · rw [hl2]
      simp only
      rw [headBase_append_of_ne _ hseg1ne]
      exact hhead1
    · rw [hl2]
      simp only
      rw [lastNext_of_getLast (List.getLast?_concat _)]
    · intro b hb
      rw [hl2] at hb
      simp only [List.getLast?_concat] at hb
      cases hb
      unfold Segment.isMaxed Store.size Index.size
      simp only [List.length_nil]
      have h1 := h.cfg_store
      have h2 := h.cfg_index
      simp
      omega

theorem LogOK.append_err_inv {l : Log} {vss : List (List (List Nat))} {r : Record}
    {a : Segment} {avs : List (List Nat)}
    (h : LogOK l vss) (ha : l.segments.getLast? = some a)
    (havs : vss.getLast? = some avs) (haok : SegOK a avs)
    (hv : r.value.length < 2 ^ 64)
    (hsz : a.store.data.length + r.value.length + 30 < 2 ^ 64)
    (hfull : a.index.cap < a.index.size + 12) :
    ∃ l', l.append r = (.error .eof, l') ∧ LogOK l' vss ∧
      headBase l'.segments = headBase l.segments ∧
      lastNext l'.segments = lastNext l.segments := by
  have hact : l.active = some a := by rw [h.active_last, ha]
  have happ := haok.append_err hv hsz hfull
  have hie : l.segments.isEmpty = false := List.isEmpty_eq_false.mpr h.chain.ne_nil
  have hamem : a ∈ l.segments := List.mem_of_mem_getLast? ha
  have hdec : l.segments.dropLast ++ [a] = l.segments :=
    List.dropLast_append_getLast? a ha
  have hdecv : vss.dropLast ++ [avs] = vss :=
    List.dropLast_append_getLast? avs havs
  have hl1 : l.writeActive (a.append r).seg =
      { dir := l.dir, config := l.config,
        segments := l.segments.dropLast ++ [(a.append r).seg],
        active := some (a.append r).seg } := by
    unfold Log.writeActive
    rw [hie]
    rfl
  have heq : l.append r = (.error .eof, l.writeActive (a.append r).seg) := by
    unfold Log.append
    rw [hact]
    simp only
    rw [happ.1]
  have hchain1 : SegChain (l.segments.dropLast ++ [(a.append r).seg])
      (vss.dropLast ++ [avs]) :=
    h.chain.replace_last ha havs happ.2.1 happ.2.2.1
  rw [hdecv] at hchain1
  have hmapbase : (l.segments.dropLast ++ [(a.append r).seg]).map (fun s => s.baseOffset) =
      l.segments.map (fun s => s.baseOffset) := by
    conv_rhs => rw [← hdec]
    simp [happ.2.2.1]
  refine ⟨_, heq, ?_, ?_, ?_⟩
  · constructor
    case chain => rw [hl1]; exact hchain1
    case active_last => rw [hl1]; simp [List.getLast?_concat]
    case dir_bases => rw [hl1]; simp only; rw [hmapbase]; exact h.dir_bases
    case cfg_each =>
      rw [hl1]
      intro s hs
      rcases List.mem_append.mp hs with h1 | h1
      · exact h.cfg_each s (List.mem_of_mem_dropLast h1)
      · simp at h1
        subst h1
        rw [happ.2.2.2.2.1]
        exact h.cfg_each a hamem
    case cfg_store => rw [hl1]; exact h.cfg_store
    case cfg_index => rw [hl1]; exact h.cfg_index
  · rw [hl1]
    exact headBase_replace_last ha happ.2.2.1
  · rw [hl1]
    simp only
    rw [lastNext_of_getLast (List.getLast?_concat _), happ.2.2.2.1,
      lastNext_of_getLast ha]

/-! ## Truncate preservation -/

theorem SegChain.headBase_le_base {segs : List Segment} {vss : List (List (List Nat))}
    (h : SegChain segs vss) : ∀ t ∈ segs, headBase segs ≤ t.baseOffset := by
  induction h with
  | last s vs hs =>
    intro t ht
    simp at ht
    subst ht
    rw [headBase_cons]
  | cons s vs rest vss hs hne hlink hrest ih =>
    intro t ht
    rw [headBase_cons]
    rcases List.mem_cons.mp ht with h1 | h1
    · subst h1
      omega
    · have := ih t h1
      omega

theorem SegChain.bases_pairwise {segs : List Segment} {vss : List (List (List Nat))}
    (h : SegChain segs vss) :
    List.Pairwise (· < ·) (segs.map (fun s => s.baseOffset)) := by
  induction h with
  | last s vs hs => simp
  | cons s vs rest vss hs hne hlink hrest ih =>
    simp only [List.map_cons, List.pairwise_cons]
    refine ⟨?_, ih⟩
    intro b hb
    obtain ⟨t, ht, htb⟩ := List.mem_map.mp hb
    have := hrest.headBase_le_base t ht
    omega

theorem SegChain.bases_nodup {segs : List Segment} {vss : List (List (List Nat))}
    (h : SegChain segs vss) : (segs.map (fun s => s.baseOffset)).Nodup :=
  h.bases_pairwise.imp (fun hlt => Nat.ne_of_lt hlt)

theorem truncateLoop_all_kept (lowest : Nat) :
    ∀ (segs : List Segment) (d : Disk),
      (∀ s ∈ segs, lowest + 1 < s.nextOffset) →
      Log.truncateLoop lowest segs d = (segs, d) := by
  intro segs
  induction segs with
  | nil => intro d _; rfl
  | cons s rest ih =>
    intro d hall
    unfold Log.truncateLoop
    rw [if_neg (by have := hall s (by simp); omega)]
    rw [ih d (fun t ht => hall t (by simp [ht]))]

theorem SegChain.truncate_spec {segs : List Segment} {vss : List (List (List Nat))}
    (h : SegChain segs vss) (lowest : Nat) :
    ∀ d : Disk, ∃ n,
      Log.truncateLoop lowest segs d =
        (segs.drop n, (segs.take n).foldl (fun dd s => dd.removeFiles s.baseOffset) d) ∧
      (∀ s ∈ segs.take n, s.nextOffset ≤ lowest + 1) ∧
      (∀ s ∈ segs.drop n, lowest + 1 < s.nextOffset) := by
  induction h with
  | last s vs hs =>
    intro d
    by_cases hrem : s.nextOffset ≤ lowest + 1
    · refine ⟨1, ?_, ?_, ?_⟩
      · unfold Log.truncateLoop
        rw [if_pos hrem]
        rfl
      · intro t ht
        simp at ht
        subst ht
        exact hrem
      · intro t ht
        simp at ht
    · refine ⟨0, ?_, ?_, ?_⟩
      · unfold Log.truncateLoop
        rw [if_neg hrem]
        rfl
      · intro t ht
        simp at ht
      · intro t ht
        simp at ht
        subst ht
        omega
  | cons s vs rest vss hs hne hlink hrest ih =>
    intro d
    by_cases hrem : s.nextOffset ≤ lowest + 1
    · obtain ⟨n, h1, h2, h3⟩ := ih (d.removeFiles s.baseOffset)
      refine ⟨n + 1, ?_, ?_, ?_⟩
      · unfold Log.truncateLoop
        rw [if_pos hrem]
        rw [h1]
        rfl
      · intro t ht
        simp only [List.take_succ_cons] at ht
        rcases List.mem_cons.mp ht with h4 | h4
        · subst h4
          exact hrem
        · exact h2 t h4
      · intro t ht
        simp only [List.drop_succ_cons] at ht
        exact h3 t ht
    · have hall : ∀ t ∈ s :: rest, lowest + 1 < t.nextOffset := by
        intro t ht
        rcases List.mem_cons.mp ht with h4 | h4
        · subst h4
          omega
        · have h5 := hrest.headBase_le_base t h4
          have h6 := hrest.base_le_next_of_mem t h4
          omega
      refine ⟨0, ?_, ?_, ?_⟩
      · rw [truncateLoop_all_kept lowest _ d hall]
        rfl
      · intro t ht
        simp at ht
      · intro t ht
        simp at ht
        exact hall t (by simp [ht])

theorem SegChain.drop_of_ne {segs : List Segment} {vss : List (List (List Nat))}
    (h : SegChain segs vss) :
    ∀ n, segs.drop n ≠ [] → SegChain (segs.drop n) (vss.drop n) := by
  induction h with
  | last s vs hs =>
    intro n hn
    cases n with
    | zero => exact SegChain.last s vs hs
    | succ m =>
      rw [List.drop_succ_cons, List.drop_nil] at hn
      exact absurd rfl hn
  | cons s vs rest vss hs hne hlink hrest ih =>
    intro n hn
    cases n with
    | zero => exact SegChain.cons s vs rest vss hs hne hlink hrest
    | succ m =>
      simp only [List.drop_succ_cons] at hn ⊢
      exact ih m hn

theorem SegChain.drop_headBase {segs : List Segment} {vss : List (List (List Nat))}
    (h : SegChain segs vss) :
    ∀ n, segs.drop n ≠ [] →
      headBase (segs.drop n) = headBase segs + ((vss.take n).flatten).length := by
  induction h with
  | last s vs hs =>
    intro n hn
    cases n with
    | zero => simp
    | succ m =>
      rw [List.drop_succ_cons, List.drop_nil] at hn
      exact absurd rfl hn
  | cons s vs rest vss hs hne hlink hrest ih =>
    intro n hn
    cases n with
    | zero => simp
    | succ m =>
      simp only [List.drop_succ_cons] at hn ⊢
      rw [ih m hn, hlink]
      rw [headBase_cons, List.take_succ_cons, List.flatten_cons, List.length_append]
      have := hs.next_eq
      omega

theorem SegChain.drop_lastNext {segs : List Segment} {vss : List (List (List Nat))}
    (h : SegChain segs vss) :
    ∀ n, segs.drop n ≠ [] → lastNext (segs.drop n) = lastNext segs := by
  induction h with
  | last s vs hs =>
    intro n hn
    cases n with
    | zero => rfl
    | succ m =>
      rw [List.drop_succ_cons, List.drop_nil] at hn
      exact absurd rfl hn
  | cons s vs rest vss hs hne hlink hrest ih =>
    intro n hn
    cases n with
    | zero => rfl
    | succ m =>
      simp only [List.drop_succ_cons] at hn ⊢
      rw [ih m hn, lastNext_cons_of_ne hrest.ne_nil]

theorem SegChain.drop_getLast {segs : List Segment} {vss : List (List (List Nat))}
    (h : SegChain segs vss) :
    ∀ n, segs.drop n ≠ [] → (segs.drop n).getLast? = segs.getLast? := by
  induction h with
  | last s vs hs =>
    intro n hn
    cases n with
    | zero => rfl
    | succ m =>
      rw [List.drop_succ_cons, List.drop_nil] at hn
      exact absurd rfl hn
  | cons s vs rest vss hs hne hlink hrest ih =>
    intro n hn
    cases n with
    | zero => rfl
    | succ m =>
      simp only [List.drop_succ_cons] at hn ⊢
      rw [ih m hn]
      cases hr : rest with
      | nil => exact absurd hr hrest.ne_nil
      | cons t u => rw [List.getLast?_cons_cons]

theorem dir_remove_prefix :
    ∀ (segs : List Segment) (d : Disk) (n : Nat),
      d.map (fun e => e.base) = segs.map (fun s => s.baseOffset) →
      (segs.map (fun s => s.baseOffset)).Nodup →
      ((segs.take n).foldl (fun dd s => dd.removeFiles s.baseOffset) d).map (fun e => e.base) =
        (segs.drop n).map (fun s => s.baseOffset) := by
  intro segs
  induction segs with
  | nil =>
    intro d n hmap _
    simp only [List.map_nil] at hmap
    simp only [List.take_nil, List.foldl_nil, List.drop_nil, List.map_nil]
    exact hmap
  | cons s rest ih =>
    intro d n hmap hnd
    cases n with
    | zero => simpa using hmap
    | succ m =>
      cases d with
      | nil => simp at hmap
      | cons e drest =>
        simp only [List.map_cons, List.cons.injEq] at hmap
        have hrm : Disk.removeFiles (e :: drest) s.baseOffset = drest := by
          unfold Disk.removeFiles
          rw [List.filter_cons]
          rw [if_neg (by simp [hmap.1])]
          rw [List.filter_eq_self.mpr]
          intro a ha
          have hane : a.base ≠ s.baseOffset := by
            intro hc
            have hmem : a.base ∈ drest.map (fun e => e.base) := List.mem_map_of_mem _ ha
            rw [hmap.2] at hmem
            rw [hc] at hmem
            simp only [List.map_cons, List.nodup_cons] at hnd
            exact hnd.1 hmem
          simp [hane]
        simp only [List.take_succ_cons, List.foldl_cons, List.drop_succ_cons]
        rw [hrm]
        exact ih drest m hmap.2 (by simp only [List.map_cons, List.nodup_cons] at hnd; exact hnd.2)

theorem LogOK.truncate_inv {l : Log} {vss : List (List (List Nat))}
    (h : LogOK l vss) (k : Nat) (hne : (l.truncate k).segments ≠ []) :
    ∃ n, (l.truncate k).segments = l.segments.drop n ∧
      LogOK (l.truncate k) (vss.drop n) ∧
      headBase (l.truncate k).segments = headBase l.segments + ((vss.take n).flatten).length ∧
      lastNext (l.truncate k).segments = lastNext l.segments ∧
      (vss.drop n).flatten = vss.flatten.drop (((vss.take n).flatten).length) ∧
      (∀ s ∈ l.segments.take n, s.nextOffset ≤ k + 1) ∧
      (∀ s ∈ l.segments.drop n, k + 1 < s.nextOffset) := by
  obtain ⟨n, hloop, htake, hdrop⟩ := h.chain.truncate_spec k l.dir
  have hsegs : (l.truncate k).segments = l.segments.drop n := by
    unfold Log.truncate
    rw [hloop]
  have hdir : (l.truncate k).dir =
      (l.segments.take n).foldl (fun dd s => dd.removeFiles s.baseOffset) l.dir := by
    unfold Log.truncate
    rw [hloop]
  rw [hsegs] at hne
  have hflatdec : vss.flatten = (vss.take n).flatten ++ (vss.drop n).flatten := by
    rw [← List.flatten_append, List.take_append_drop]
  refine ⟨n, hsegs, ?_, ?_, ?_, ?_, htake, hdrop⟩
  · constructor
    case chain => rw [hsegs]; exact h.chain.drop_of_ne n hne
    case active_last =>
      rw [hsegs]
      show l.active = _
      rw [h.active_last, h.chain.drop_getLast n hne]
    case dir_bases =>
      rw [hsegs, hdir]
      exact dir_remove_prefix l.segments l.dir n h.dir_bases h.chain.bases_nodup
    case cfg_each =>
      rw [hsegs]
      intro s hs
      exact h.cfg_each s (List.mem_of_mem_drop hs)
    case cfg_store => exact h.cfg_store
    case cfg_index => exact h.cfg_index
  · rw [hsegs]
    exact h.chain.drop_headBase n hne
  · rw [hsegs]
    exact h.chain.drop_lastNext n hne
  · rw [hflatdec]
    rw [List.drop_left]

/-! ## The freshly created Log -/

theorem newLog_empty_eq (c : Config) :
    newLog [] c =
      { dir := [⟨c.initialOffset, [], []⟩], config := c.withDefaults,
        segments := [⟨⟨[]⟩, ⟨[], c.withDefaults.maxIndexBytes⟩,
          c.initialOffset, c.initialOffset, c.withDefaults⟩],
        active := some ⟨⟨[]⟩, ⟨[], c.withDefaults.maxIndexBytes⟩,
          c.initialOffset, c.initialOffset, c.withDefaults⟩ } := rfl

theorem withDefaults_store_ne (c : Config) : c.withDefaults.maxStoreBytes ≠ 0 := by
  unfold Config.withDefaults
  by_cases h : c.maxStoreBytes = 0 <;> simp [h]

theorem withDefaults_index_ne (c : Config) : c.withDefaults.maxIndexBytes ≠ 0 := by
  unfold Config.withDefaults
  by_cases h : c.maxIndexBytes = 0 <;> simp [h]

theorem newLog_empty_ok (c : Config) (hinit : c.initialOffset < 2 ^ 63) :
    LogOK (newLog [] c) [[]] ∧
    headBase (newLog [] c).segments = c.initialOffset ∧
    lastNext (newLog [] c).segments = c.initialOffset := by
  rw [newLog_empty_eq]
  refine ⟨?_, rfl, rfl⟩
  constructor
  case chain =>
    apply SegChain.last
    constructor
    case next_eq => simp
    case next_lt => exact hinit
    case data_lt => simp
    case entries_len => rfl
    case cap_ok => simp [Index.size]
    case cap_cfg => rfl
    case entry => intro j v hj; cases hj
  case active_last => rfl
  case dir_bases => rfl
  case cfg_each =>
    intro s hs
    simp at hs
    subst hs
    rfl
  case cfg_store => exact withDefaults_store_ne c
  case cfg_index => exact withDefaults_index_ne c

/-! ## A light invariant for offset contiguity (claim C1)

Unlike `LogOK`, `LiteOK` carries no byte-level content and therefore needs
no size hypotheses; it is enough to track offset arithmetic through
appends.
-/

structure LiteOK (l : Log) : Prop where
  ne : l.segments ≠ []
  active_last : l.active = l.segments.getLast?
  base_le : ∀ s ∈ l.segments, s.baseOffset ≤ s.nextOffset
  base_le_last : ∀ s ∈ l.segments, s.baseOffset ≤ lastNext l.segments
  dir_le : ∀ e ∈ l.dir, e.base ≤ lastNext l.segments

theorem Segment.append_cases (s : Segment) (r : Record) :
    ((s.append r).res = .ok s.nextOffset ∧
       (s.append r).seg.nextOffset = s.nextOffset + 1 ∧
       (s.append r).seg.baseOffset = s.baseOffset ∧
       (s.append r).seg.config = s.config) ∨
    (∃ e, (s.append r).res = .error e ∧
       (s.append r).seg.nextOffset = s.nextOffset ∧
       (s.append r).seg.baseOffset = s.baseOffset ∧
       (s.append r).seg.config = s.config) := by
  unfold Segment.append
  dsimp only
  split
  · right
    exact ⟨_, rfl, rfl, rfl, rfl⟩
  · left
    exact ⟨rfl, rfl, rfl, rfl⟩

theorem LiteOK.lite_lookup_miss {l : Log} (h : LiteOK l) {b : Nat}
    (hb : lastNext l.segments < b) : l.dir.lookup b = none := by
  unfold Disk.lookup
  rw [List.find?_eq_none]
  intro e he
  have := h.dir_le e he
  simp only [beq_iff_eq]
  omega

theorem LiteOK.lite_replace_last {l : Log} {a b : Segment} (h : LiteOK l)
    (ha : l.segments.getLast? = some a) (hbase : b.baseOffset = a.baseOffset)
    (hble : b.baseOffset ≤ b.nextOffset) (hnle : a.nextOffset ≤ b.nextOffset) :
    LiteOK { dir := l.dir, config := l.config,
             segments := l.segments.dropLast ++ [b], active := some b } ∧
    lastNext (l.segments.dropLast ++ [b]) = b.nextOffset := by
  have hlast : (l.segments.dropLast ++ [b]).getLast? = some b := List.getLast?_concat _
  have hln := lastNext_of_getLast hlast
  have hlnold := lastNext_of_getLast ha
  refine ⟨?_, hln⟩
  constructor
  case ne => simp
  case active_last =>
    show some b = _
    rw [hlast]
  case base_le =>
    intro s hs
    rcases List.mem_append.mp hs with h1 | h1
    · exact h.base_le s (List.mem_of_mem_dropLast h1)
    · simp at h1
      subst h1
      exact hble
  case base_le_last =>
    intro s hs
    show s.baseOffset ≤ lastNext (l.segments.dropLast ++ [b])
    rw [hln]
    rcases List.mem_append.mp hs with h1 | h1
    · have := h.base_le_last s (List.mem_of_mem_dropLast h1)
      omega
    · simp at h1
      subst h1
      exact hble
  case dir_le =>
    intro e he
    show e.base ≤ lastNext (l.segments.dropLast ++ [b])
    rw [hln]
    have := h.dir_le e he
    omega

theorem LiteOK.append_step (l : Log) (r : Record) (h : LiteOK l) :
    (∀ off l', l.append r = (.ok off, l') →
       off = lastNext l.segments ∧ LiteOK l' ∧ lastNext l'.segments = off + 1) ∧
    (∀ e l', l.append r = (.error e, l') →
       LiteOK l' ∧ lastNext l'.segments = lastNext l.segments) := by
  obtain ⟨a, ha⟩ : ∃ a, l.segments.getLast? = some a := by
    cases hg : l.segments.getLast? with
    | none =>
      rw [List.getLast?_eq_none_iff] at hg
      exact absurd hg h.ne
    | some a => exact ⟨a, rfl⟩
  have hact : l.active = some a := by rw [h.active_last, ha]
  have hln : lastNext l.segments = a.nextOffset := lastNext_of_getLast ha
  have hie : l.segments.isEmpty = false := List.isEmpty_eq_false.mpr h.ne
  have hamem : a ∈ l.segments := List.mem_of_mem_getLast? ha
  have hable : a.baseOffset ≤ a.nextOffset := h.base_le a hamem
  have hl1 : l.writeActive (a.append r).seg =
      { dir := l.dir, config := l.config,
        segments := l.segments.dropLast ++ [(a.append r).seg],
        active := some (a.append r).seg } := by
    unfold Log.writeActive
    rw [hie]
    rfl
  rcases Segment.append_cases a r with ⟨hres, hnext, hbase, hcfg⟩ | ⟨e0, hres, hnext, hbase, hcfg⟩
  · -- segment append succeeded: Log.append returns ok, possibly rolling over
    obtain ⟨hok1, hok2⟩ := h.lite_replace_last ha hbase (by omega) (by omega)
    cases hmax : (a.append r).seg.isMaxed with
    | false =>
      have heq : l.append r = (.ok a.nextOffset, l.writeActive (a.append r).seg) := by
        unfold Log.append
        rw [hact]
        simp only
        rw [hres]
        simp only
        rw [hmax]
        rfl
      constructor
      · intro off l' happ
        rw [heq] at happ
        cases happ
        refine ⟨hln.symm, ?_, ?_⟩
        · rw [hl1]
          exact hok1
        · rw [hl1]
          simp only
          rw [hok2, hnext]
      · intro e l' happ
        rw [heq] at happ
        cases happ
    | true =>
      have hmiss : l.dir.lookup (a.nextOffset + 1) = none :=
        h.lite_lookup_miss (by omega)
      have hfresh := openSegment_fresh (c := l.config) hmiss
      have heq : l.append r =
          (.ok a.nextOffset,
           (l.writeActive (a.append r).seg).addSegment (a.nextOffset + 1)) := by
        unfold Log.append
        rw [hact]
        simp only
        rw [hres]
        simp only
        rw [hmax]
        rfl
      have hl2 : (l.writeActive (a.append r).seg).addSegment (a.nextOffset + 1) =
          { dir := l.dir ++ [⟨a.nextOffset + 1, [], []⟩], config := l.config,
            segments := (l.segments.dropLast ++ [(a.append r).seg]) ++
              [⟨⟨[]⟩, ⟨[], l.config.maxIndexBytes⟩, a.nextOffset + 1,
                a.nextOffset + 1, l.config⟩],
            active := some ⟨⟨[]⟩, ⟨[], l.config.maxIndexBytes⟩, a.nextOffset + 1,
              a.nextOffset + 1, l.config⟩ } := by
        rw [hl1]
        unfold Log.addSegment
        simp only
        rw [hfresh]
      have hlast2 : ((l.segments.dropLast ++ [(a.append r).seg]) ++
          [(⟨⟨[]⟩, ⟨[], l.config.maxIndexBytes⟩, a.nextOffset + 1,
            a.nextOffset + 1, l.config⟩ : Segment)]).getLast? =
          some ⟨⟨[]⟩, ⟨[], l.config.maxIndexBytes⟩, a.nextOffset + 1,
            a.nextOffset + 1, l.config⟩ :=
        List.getLast?_concat _
      have hln2 : lastNext ((l.segments.dropLast ++ [(a.append r).seg]) ++
          [(⟨⟨[]⟩, ⟨[], l.config.maxIndexBytes⟩, a.nextOffset + 1,
            a.nextOffset + 1, l.config⟩ : Segment)]) = a.nextOffset + 1 := by
        rw [lastNext_of_getLast hlast2]
      constructor
      · intro off l' happ
        rw [heq] at happ
        cases happ
        refine ⟨hln.symm, ?_, ?_⟩
        · rw [hl2]
          constructor
          case ne => simp
          case active_last =>
            show some _ = _
            rw [hlast2]
          case base_le =>
            intro s hs
            rcases List.mem_append.mp hs with h1 | h1
            · rcases List.mem_append.mp h1 with h2 | h2
              · exact h.base_le s (List.mem_of_mem_dropLast h2)
              · simp at h2
                subst h2
                omega
            · simp at h1
              subst h1
              simp
          case base_le_last =>
            intro s hs
            show s.baseOffset ≤ lastNext _
            rw [hln2]
            rcases List.mem_append.mp hs with h1 | h1
            · rcases List.mem_append.mp h1 with h2 | h2
              · have := h.base_le_last s (List.mem_of_mem_dropLast h2)
                omega
              · simp at h2
                subst h2
                omega
            · simp at h1
              subst h1
              simp
          case dir_le =>
            intro e he
            show e.base ≤ lastNext _
            rw [hln2]
            rcases List.mem_append.mp he with h1 | h1
            · have := h.dir_le e h1
              omega
            · simp at h1
              rw [h1]
        · rw [hl2]
          simp only
          rw [hln2]
      · intro e l' happ
        rw [heq] at happ
        cases happ
  · -- segment append failed: the error is returned, no rollover
    obtain ⟨hok1, hok2⟩ := h.lite_replace_last ha hbase (by omega) (by omega)
    have heq : l.append r = (.error e0, l.writeActive (a.append r).seg) := by
      unfold Log.append
      rw [hact]
      simp only
      rw [hres]
    constructor
    · intro off l' happ
      rw [heq] at happ
      cases happ
    · intro e l' happ
      rw [heq] at happ
      cases happ
      refine ⟨?_, ?_⟩
      · rw [hl1]
        exact hok1
      · rw [hl1]
        simp only
        rw [hok2, hnext, hln]

theorem newLog_empty_lite (c : Config) :
    LiteOK (newLog [] c) ∧ lastNext (newLog [] c).segments = c.initialOffset := by
  rw [newLog_empty_eq]
  refine ⟨?_, rfl⟩
  constructor
  case ne => simp
  case active_last => rfl
  case base_le =>
    intro s hs
    simp at hs
    subst hs
    simp
  case base_le_last =>
    intro s hs
    simp at hs
    subst hs
    simp [lastNext]
  case dir_le =>
    intro e he
    simp at he
    subst he
    simp [lastNext]

/-- The offsets returned by the successful appends in a sequence of
`Log.Append` calls (failed appends return no offset and the loop moves on
with the mutated log, exactly as a caller retrying would observe). -/
def Log.appendOffsets : Log → List Record → List Nat
  | _, [] => []
  | l, r :: rs =>
    match l.append r with
    | (.ok off, l') => off :: l'.appendOffsets rs
    | (.error _, l') => l'.appendOffsets rs

theorem appendOffsets_range' (rs : List Record) : ∀ (l : Log), LiteOK l →
    Log.appendOffsets l rs =
      List.range' (lastNext l.segments) (Log.appendOffsets l rs).length := by
  induction rs with
  | nil => intro l _; rfl
  | cons r rest ih =>
    intro l h
    cases happ : l.append r with
    | mk res l' =>
      cases res with
      | ok off =>
        obtain ⟨h1, h2, h3⟩ := (LiteOK.append_step l r h).1 off l' happ
        have hrec := ih l' h2
        rw [h3] at hrec
        have hunf : Log.appendOffsets l (r :: rest) = off :: Log.appendOffsets l' rest := by
          show (match l.append r with
            | (.ok off, l') => off :: Log.appendOffsets l' rest
            | (.error _, l') => Log.appendOffsets l' rest) = off :: Log.appendOffsets l' rest
          rw [happ]
        rw [hunf, hrec]
        rw [h1]
        simp [List.length_range', List.range'_succ]
      | error e =>
        obtain ⟨h2, h3⟩ := (LiteOK.append_step l r h).2 e l' happ
        have hrec := ih l' h2
        rw [h3] at hrec
        have hunf : Log.appendOffsets l (r :: rest) = Log.appendOffsets l' rest := by
          show (match l.append r with
            | (.ok off, l') => off :: Log.appendOffsets l' rest
            | (.error _, l') => Log.appendOffsets l' rest) = Log.appendOffsets l' rest
          rw [happ]
        rw [hunf, hrec]
        simp [List.length_range']

/-- C1: on a Log freshly created over an empty directory with
`InitialOffset 0`, the offsets returned by any sequence of successful
`Append` calls are exactly `0, 1, 2, …` contiguously — each successful
append returns the previous successful append's offset plus one, starting
at 0, including across segment roll-overs (a rolled segment starts at
`off + 1`, the next offset to assign). -/
theorem log_append_offsets_contiguous (c : Config) (h0 : c.initialOffset = 0)
    (rs : List Record) :
    Log.appendOffsets (newLog [] c) rs =
      List.range (Log.appendOffsets (newLog [] c) rs).length := by
  obtain ⟨hl, hln⟩ := newLog_empty_lite c
  have hmain := appendOffsets_range' rs (newLog [] c) hl
  rw [hln, h0] at hmain
  rw [List.range_eq_range']
  exact hmain

/-- C1 witness: with `MaxStoreBytes = 9` every append rolls the segment
over, and three appends on the fresh log still return `[0, 1, 2]`. -/
theorem log_append_offsets_contiguous_witness :
    Log.appendOffsets (newLog [] ⟨9, 0, 0⟩) [⟨[104], 0⟩, ⟨[105], 0⟩, ⟨[106], 0⟩] =
      List.range (Log.appendOffsets (newLog [] ⟨9, 0, 0⟩)
        [⟨[104], 0⟩, ⟨[105], 0⟩, ⟨[106], 0⟩]).length ∧
    Log.appendOffsets (newLog [] ⟨9, 0, 0⟩) [⟨[104], 0⟩, ⟨[105], 0⟩, ⟨[106], 0⟩] = [0, 1, 2] ∧
    ((((newLog [] ⟨9, 0, 0⟩).append ⟨[104], 0⟩).2.append
        ⟨[105], 0⟩).2.append ⟨[106], 0⟩).2.segments.length = 4 := by
  exact ⟨log_append_offsets_contiguous ⟨9, 0, 0⟩ rfl _, by decide, by decide⟩

/-! ## Operation traces (appends and truncates) with the ghost list of
surviving written records -/

inductive LogOp where
  | append (r : Record)
  | truncate (k : Nat)

/-- One step of a client trace. The ghost second component records the
`(offset, payload)` of every successful append whose segment has not been
removed by a truncate. -/
def runOp (s : Log × List (Nat × List Nat)) (op : LogOp) : Log × List (Nat × List Nat) :=
  match op with
  | .append r =>
    match s.1.append r with
    | (.ok off, l') => (l', s.2 ++ [(off, r.value)])
    | (.error _, l') => (l', s.2)
  | .truncate k =>
    (s.1.truncate k,
     s.2.filter (fun e => ((s.1.truncate k).lowestOffset.getD 0) ≤ e.1))

def runOps (l : Log) (ops : List LogOp) : Log × List (Nat × List Nat) :=
  ops.foldl runOp (l, [])

/-- Soundness conditions for one step of a trace, checked on the state it
runs from: byte counters stay inside `uint64`, offsets inside `int64`, and
no truncate empties the segment list (after which `LowestOffset` panics in
Go and the dangling active-segment pointer writes into unlinked files). -/
def opOk (l : Log) : LogOp → Bool
  | .append r =>
    match l.segments.getLast? with
    | some a =>
      decide (r.value.length + 30 < 2 ^ 64) &&
      decide (a.store.data.length + r.value.length + 30 < 2 ^ 64) &&
      decide (a.nextOffset + 1 < 2 ^ 63)
    | none => false
  | .truncate k => !(l.truncate k).segments.isEmpty

def opsOk : Log → List LogOp → Bool
  | _, [] => true
  | l, op :: rest => opOk l op && opsOk (runOp (l, []) op).1 rest

theorem runOp_fst (l : Log) (w w' : List (Nat × List Nat)) (op : LogOp) :
    (runOp (l, w) op).1 = (runOp (l, w') op).1 := by
  cases op with
  | append r =>
    unfold runOp
    dsimp only
    cases happ : l.append r with
    | mk res l2 => cases res <;> rfl
  | truncate k => rfl

theorem Log.append_config (l : Log) (r : Record) : (l.append r).2.config = l.config := by
  unfold Log.append
  cases hact : l.active with
  | none => rfl
  | some a =>
    dsimp only
    cases hres : (a.append r).res with
    | error e => rfl
    | ok off =>
      dsimp only
      split <;> rfl

/-- The record values written into a Log and surviving truncation, read back.
`WrittenInv` ties every ghost entry to the in-range content of the state. -/
def WrittenInv (l : Log) (vss : List (List (List Nat))) (w : List (Nat × List Nat)) : Prop :=
  ∀ p ∈ w, headBase l.segments ≤ p.1 ∧ p.1 < lastNext l.segments ∧
    vss.flatten.get? (p.1 - headBase l.segments) = some p.2

theorem lowestOffset_eq_headBase {l : Log} (h : l.segments ≠ []) :
    l.lowestOffset.getD 0 = headBase l.segments := by
  unfold Log.lowestOffset headBase
  cases hs : l.segments with
  | nil => exact absurd hs h
  | cons a rest => rfl

theorem runOps_inv (ops : List LogOp) : ∀ (l : Log) (vss : List (List (List Nat)))
    (w : List (Nat × List Nat)),
    LogOK l vss → WrittenInv l vss w → opsOk l ops = true →
    ∃ vss', LogOK (ops.foldl runOp (l, w)).1 vss' ∧
      WrittenInv (ops.foldl runOp (l, w)).1 vss' (ops.foldl runOp (l, w)).2 ∧
      (ops.foldl runOp (l, w)).1.config = l.config := by
  induction ops with
  | nil =>
    intro l vss w hok hw _
    exact ⟨vss, hok, hw, rfl⟩
  | cons op rest ih =>
    intro l vss w hok hw hvalid
    rw [opsOk] at hvalid
    rw [Bool.and_eq_true] at hvalid
    obtain ⟨hop, hrest⟩ := hvalid
    have hfold : (op :: rest).foldl runOp (l, w) = rest.foldl runOp (runOp (l, w) op) := rfl
    rw [hfold]
    have hrest' : opsOk (runOp (l, w) op).1 rest = true := by
      rw [runOp_fst l w []]
      exact hrest
    cases op with
    | append r =>
      obtain ⟨a, avs, ha, havs, haok⟩ := hok.chain.getLast_ok
      rw [opOk, ha] at hop
      simp only [Bool.and_eq_true, decide_eq_true_eq] at hop
      obtain ⟨⟨hv30, hsz⟩, hnlt'⟩ := hop
      have hnlt : lastNext l.segments + 1 < 2 ^ 63 := by
        rw [lastNext_of_getLast ha]
        exact hnlt'
      by_cases hroom : a.index.size + 12 ≤ a.index.cap
      · obtain ⟨l1, heq, vss1, hok1, hflat1, hhead1, hlast1, hnm1⟩ :=
          hok.append_ok_inv ha havs haok (by omega) hsz hnlt hroom
        have hstep : runOp (l, w) (.append r) = (l1, w ++ [(lastNext l.segments, r.value)]) := by
          unfold runOp
          dsimp only
          rw [heq]
        rw [hstep] at hrest' ⊢
        have hw1 : WrittenInv l1 vss1 (w ++ [(lastNext l.segments, r.value)]) := by
          intro p hp
          rcases List.mem_append.mp hp with h1 | h1
          · obtain ⟨hb1, hb2, hb3⟩ := hw p h1
            have hlen := hok.chain.flatten_len
            refine ⟨by omega, by omega, ?_⟩
            rw [hhead1, hflat1]
            rw [List.get?_append (by omega)]
            exact hb3
          · simp at h1
            subst h1
            have hlen := hok.chain.flatten_len
            have hhl := hok.chain.headBase_le_lastNext
            refine ⟨by simp only [hhead1]; omega, by simp only [hlast1]; omega, ?_⟩
            simp only [hhead1, hflat1]
            rw [show lastNext l.segments - headBase l.segments = vss.flatten.length
              from by omega]
            rw [List.get?_concat_length]
        obtain ⟨vss2, hok2, hw2, hcfg2⟩ := ih l1 vss1 _ hok1 hw1 hrest'
        refine ⟨vss2, hok2, hw2, ?_⟩
        rw [hcfg2]
        have : l1.config = l.config := by
          have := Log.append_config l r
          rw [heq] at this
          exact this
        exact this
      · obtain ⟨l1, heq, hok1, hhead1, hlast1⟩ :=
          hok.append_err_inv ha havs haok (by omega) hsz (by omega)
        have hstep : runOp (l, w) (.append r) = (l1, w) := by
          unfold runOp
          dsimp only
          rw [heq]
        rw [hstep] at hrest' ⊢
        have hw1 : WrittenInv l1 vss w := by
          intro p hp
          obtain ⟨hb1, hb2, hb3⟩ := hw p hp
          rw [hhead1, hlast1]
          exact ⟨hb1, hb2, hb3⟩
        obtain ⟨vss2, hok2, hw2, hcfg2⟩ := ih l1 vss _ hok1 hw1 hrest'
        refine ⟨vss2, hok2, hw2, ?_⟩
        rw [hcfg2]
        have : l1.config = l.config := by
          have := Log.append_config l r
          rw [heq] at this
          exact this
        exact this
    | truncate k =>
      rw [opOk] at hop
      rw [Bool.not_eq_true'] at hop
      rw [List.isEmpty_eq_false] at hop
      obtain ⟨n, hsegs, hok1, hhead1, hlast1, hflat1, _, _⟩ := hok.truncate_inv k hop
      have hlow : (l.truncate k).lowestOffset.getD 0 = headBase (l.truncate k).segments :=
        lowestOffset_eq_headBase hop
      have hstep : runOp (l, w) (.truncate k) =
          (l.truncate k, w.filter (fun e => ((l.truncate k).lowestOffset.getD 0) ≤ e.1)) := rfl
      rw [hstep] at hrest' ⊢
      have hw1 : WrittenInv (l.truncate k) (vss.drop n)
          (w.filter (fun e => ((l.truncate k).lowestOffset.getD 0) ≤ e.1)) := by
        intro p hp
        rw [List.mem_filter] at hp
        obtain ⟨hpw, hpf⟩ := hp
        obtain ⟨hb1, hb2, hb3⟩ := hw p hpw
        rw [hlow, hhead1] at hpf
        simp only [decide_eq_true_eq] at hpf
        refine ⟨by rw [hhead1]; omega, by rw [hlast1]; omega, ?_⟩
        rw [hhead1, hflat1]
        rw [List.get?_drop]
        rw [show (vss.take n).flatten.length +
            (p.1 - (headBase l.segments + (vss.take n).flatten.length)) =
            p.1 - headBase l.segments from by omega]
        exact hb3
      obtain ⟨vss2, hok2, hw2, hcfg2⟩ := ih (l.truncate k) (vss.drop n) _ hok1 hw1 hrest'
      exact ⟨vss2, hok2, hw2, hcfg2⟩

/-- C2: starting from a fresh Log, run any valid sequence of appends and
truncates. Every record that was successfully appended at offset `off` and
not removed by a truncate reads back as a record whose value is exactly the
appended payload and whose offset field is `off` — the offset stamped by the
Log at append time (the ghost trace records `r.value` only: whatever offset
the client put in the record is ignored and overwritten). -/
theorem log_read_returns_appended (c : Config) (ops : List LogOp)
    (hinit : c.initialOffset < 2 ^ 63)
    (hcap32 : c.withDefaults.maxIndexBytes < 12 * 2 ^ 32)
    (hvalid : opsOk (newLog [] c) ops = true) :
    ∀ off v, (off, v) ∈ (runOps (newLog [] c) ops).2 →
      (runOps (newLog [] c) ops).1.read off = .ok ⟨v, off⟩ := by
  intro off v hmem
  obtain ⟨hok0, _, _⟩ := newLog_empty_ok c hinit
  have hw0 : WrittenInv (newLog [] c) [[]] [] := by
    intro p hp
    cases hp
  obtain ⟨vss', hok', hw', hcfg'⟩ := runOps_inv ops (newLog [] c) [[]] [] hok0 hw0 hvalid
  obtain ⟨hb1, hb2, hb3⟩ := hw' (off, v) hmem
  have hcap' : (runOps (newLog [] c) ops).1.config.maxIndexBytes < 12 * 2 ^ 32 := by
    show (ops.foldl runOp ((newLog [] c), [])).1.config.maxIndexBytes < 12 * 2 ^ 32
    rw [hcfg']
    exact hcap32
  obtain ⟨v', hv', hread⟩ := hok'.read_in_range hcap' hb1 hb2
  rw [hb3] at hv'
  cases hv'
  exact hread

/-- C2 witness: a concrete valid trace — two appends, a truncate removing
the first segment, then another append; every surviving written pair reads
back with its payload and stamped offset. -/
theorem log_read_returns_appended_witness :
    opsOk (newLog [] ⟨9, 0, 0⟩)
      [.append ⟨[104], 7⟩, .append ⟨[105], 0⟩, .truncate 0, .append ⟨[106], 0⟩] = true ∧
    (∀ off v, (off, v) ∈ (runOps (newLog [] ⟨9, 0, 0⟩)
        [.append ⟨[104], 7⟩, .append ⟨[105], 0⟩, .truncate 0, .append ⟨[106], 0⟩]).2 →
      (runOps (newLog [] ⟨9, 0, 0⟩)
        [.append ⟨[104], 7⟩, .append ⟨[105], 0⟩, .truncate 0, .append ⟨[106], 0⟩]).1.read off =
        .ok ⟨v, off⟩) ∧
    (runOps (newLog [] ⟨9, 0, 0⟩)
      [.append ⟨[104], 7⟩, .append ⟨[105], 0⟩, .truncate 0, .append ⟨[106], 0⟩]).2 =
      [(1, [105]), (2, [106])] :=
  ⟨by decide,
   log_read_returns_appended ⟨9, 0, 0⟩ _ (by decide) (by decide) (by decide),
   by decide⟩

/-! ## Lowest/Highest characterization and the amended claim C3 -/

theorem lowestOffset_some {l : Log} (h : l.segments ≠ []) :
    l.lowestOffset = some (headBase l.segments) := by
  unfold Log.lowestOffset headBase
  cases hs : l.segments with
  | nil => exact absurd hs h
  | cons a rest => rfl

theorem highestOffset_some {l : Log} {a : Segment} (h : l.segments.getLast? = some a) :
    l.highestOffset = some (if a.nextOffset = 0 then 0 else a.nextOffset - 1) := by
  unfold Log.highestOffset
  rw [h]
  rfl

/-- C3 (amended): on every reachable Log state, `Read(o)` fails with
`ErrorOffsetOutOfRange{o}` — carrying exactly `o` — for every `o` with
`o ≥ HighestOffset + 1` or `o < LowestOffset`. The converse direction holds
only when the log holds at least one record (the active segment's
`nextOffset` is positive): then no `o` with `LowestOffset ≤ o ≤
HighestOffset` fails with that error. On the record-less log with
`InitialOffset 0`, `LowestOffset = HighestOffset = 0` yet `Read(0)` fails
with `ErrorOffsetOutOfRange{0}`. -/
theorem log_read_out_of_range_amended (c : Config) (ops : List LogOp)
    (hinit : c.initialOffset < 2 ^ 63)
    (hcap32 : c.withDefaults.maxIndexBytes < 12 * 2 ^ 32)
    (hvalid : opsOk (newLog [] c) ops = true)
    (o lo hi : Nat)
    (hlo : (runOps (newLog [] c) ops).1.lowestOffset = some lo)
    (hhi : (runOps (newLog [] c) ops).1.highestOffset = some hi) :
    ((hi + 1 ≤ o ∨ o < lo) →
      (runOps (newLog [] c) ops).1.read o = .error (.offsetOutOfRange o)) ∧
    (0 < lastNext (runOps (newLog [] c) ops).1.segments → lo ≤ o → o ≤ hi →
      (runOps (newLog [] c) ops).1.read o ≠ .error (.offsetOutOfRange o)) := by
  obtain ⟨hok0, _, _⟩ := newLog_empty_ok c hinit
  have hw0 : WrittenInv (newLog [] c) [[]] [] := by
    intro p hp
    cases hp
  obtain ⟨vss', hok', _, hcfg'⟩ := runOps_inv ops (newLog [] c) [[]] [] hok0 hw0 hvalid
  obtain ⟨a, avs, ha, havs, haok⟩ := hok'.chain.getLast_ok
  have hlo' := lowestOffset_some hok'.chain.ne_nil
  have hhi' := highestOffset_some ha
  have hlneq := lastNext_of_getLast ha
  have hloeq : lo = headBase (ops.foldl runOp ((newLog [] c), [])).1.segments := by
    have h2 : (ops.foldl runOp ((newLog [] c), [])).1.lowestOffset = some lo := hlo
    rw [hlo'] at h2
    cases h2
    rfl
  have hieq : hi = if a.nextOffset = 0 then 0 else a.nextOffset - 1 := by
    have h2 : (ops.foldl runOp ((newLog [] c), [])).1.highestOffset = some hi := hhi
    rw [hhi'] at h2
    cases h2
    rfl
  have hcap' : (ops.foldl runOp ((newLog [] c), [])).1.config.maxIndexBytes < 12 * 2 ^ 32 := by
    rw [hcfg']
    exact hcap32
  have hhl := hok'.chain.headBase_le_lastNext
  suffices hS :
      ((hi + 1 ≤ o ∨ o < lo) →
        (ops.foldl runOp ((newLog [] c), [])).1.read o = .error (.offsetOutOfRange o)) ∧
      (0 < lastNext (ops.foldl runOp ((newLog [] c), [])).1.segments →
        lo ≤ o → o ≤ hi →
        (ops.foldl runOp ((newLog [] c), [])).1.read o ≠ .error (.offsetOutOfRange o)) by
    exact hS
  constructor
  · intro hout
    apply hok'.read_out_of_range
    rcases hout with h1 | h1
    · rw [hieq] at h1
      right
      rw [hlneq]
      by_cases hz : a.nextOffset = 0
      · omega
      · rw [if_neg hz] at h1
        omega
    · rw [hloeq] at h1
      left
      exact h1
  · intro hpos h1 h2
    rw [hlneq] at hpos
    rw [hieq, if_neg (by omega)] at h2
    rw [hloeq] at h1
    obtain ⟨v, _, hread⟩ := hok'.read_in_range hcap' h1 (by rw [hlneq]; omega)
    rw [hread]
    intro hc
    cases hc

/-- C3 amended-claim witness: one append on the fresh log; `Read(2)` is out
of range with the exact offset in the error, and `Read(0)` does not fail
with that error. -/
theorem log_read_out_of_range_amended_witness :
    (runOps (newLog [] ⟨0, 0, 0⟩) [.append ⟨[104], 0⟩]).1.read 2 =
      .error (.offsetOutOfRange 2) ∧
    (runOps (newLog [] ⟨0, 0, 0⟩) [.append ⟨[104], 0⟩]).1.read 0 ≠
      .error (.offsetOutOfRange 0) :=
  ⟨(log_read_out_of_range_amended ⟨0, 0, 0⟩ [.append ⟨[104], 0⟩] (by decide) (by decide)
      (by decide) 2 0 0 (by decide) (by decide)).1 (by omega),
   (log_read_out_of_range_amended ⟨0, 0, 0⟩ [.append ⟨[104], 0⟩] (by decide) (by decide)
      (by decide) 0 0 0 (by decide) (by decide)).2 (by decide) (by omega) (by omega)⟩

/-! ## The amended claim C5: rollover pre-empts EndOfSpace rather than
recovering from it -/

/-- C5 (amended): `Log.Append` never rolls a segment in response to an
error — it rolls only after a successful append that leaves the active
segment `IsMaxed`. Consequently, when `MaxIndexBytes` is a multiple of the
12-byte entry width and the active segment is not maxed, the index write
cannot hit the end-of-space condition: the append succeeds, and the
resulting active segment is again not maxed. (When `MaxIndexBytes` is not
a multiple of 12 the condition does arise and is returned to the `Append`
caller with no rollover.) -/
theorem log_append_no_end_of_space {l : Log} {vss : List (List (List Nat))}
    (h : LogOK l vss) (r : Record)
    (h12 : 12 ∣ l.config.maxIndexBytes)
    (hnm : ∀ b, l.segments.getLast? = some b → b.isMaxed = false)
    (hv : r.value.length + 30 < 2 ^ 64)
    (hsz : ∀ a, l.segments.getLast? = some a →
      a.store.data.length + r.value.length + 30 < 2 ^ 64)
    (hnlt : lastNext l.segments + 1 < 2 ^ 63) :
    ∃ l', l.append r = (.ok (lastNext l.segments), l') ∧
      (∀ b, l'.segments.getLast? = some b → b.isMaxed = false) := by
  obtain ⟨a, avs, ha, havs, haok⟩ := h.chain.getLast_ok
  have hnma := hnm a ha
  unfold Segment.isMaxed at hnma
  rw [Bool.or_eq_false_iff] at hnma
  obtain ⟨_, hidx⟩ := hnma
  rw [decide_eq_false_iff_not, not_le] at hidx
  have hcapa : a.index.cap = l.config.maxIndexBytes := by
    rw [haok.cap_cfg, h.cfg_each a (List.mem_of_mem_getLast? ha)]
  have hcfga : a.config = l.config := h.cfg_each a (List.mem_of_mem_getLast? ha)
  rw [hcfga] at hidx
  have hsize12 : a.index.size = 12 * a.index.entries.length := rfl
  have hroom : a.index.size + 12 ≤ a.index.cap := by
    rw [hcapa]
    obtain ⟨m, hm⟩ := h12
    omega
  obtain ⟨l', heq, vss', hok', _, _, _, hnm'⟩ :=
    h.append_ok_inv ha havs haok (by omega) (hsz a ha) hnlt hroom
  exact ⟨l', heq, hnm'⟩

/-- C5 amended-claim witness: `MaxIndexBytes = 24` (a multiple of 12) on
the fresh Log; the append succeeds. -/
theorem log_append_no_end_of_space_witness :
    ∃ l', (newLog [] ⟨1024, 24, 0⟩).append ⟨[104], 5⟩ = (.ok 0, l') ∧
      (∀ b, l'.segments.getLast? = some b → b.isMaxed = false) :=
  log_append_no_end_of_space
    (newLog_empty_ok ⟨1024, 24, 0⟩ (by decide)).1
    ⟨[104], 5⟩
    (by decide)
    (by intro b hb; cases hb; decide)
    (by decide)
    (by intro a hb; cases hb; decide)
    (by decide)

/-! ## The amended claim C6: the structural invariant on reachable states -/

theorem SegChain.chainB_true {segs : List Segment} {vss : List (List (List Nat))}
    (h : SegChain segs vss) : chainB segs = true := by
  induction h with
  | last s vs hs => rfl
  | cons s vs rest vss hs hne hlink hrest ih =>
    cases hr : rest with
    | nil => exact absurd hr hrest.ne_nil
    | cons t u =>
      subst hr
      unfold chainB
      rw [ih]
      have hlink' : t.baseOffset = s.nextOffset := hlink
      simp [hlink', hne]

theorem LogOK.structInv_true {l : Log} {vss : List (List (List Nat))}
    (h : LogOK l vss) : structInv l = true := by
  unfold structInv
  rw [h.chain.chainB_true]
  rw [List.isEmpty_eq_false.mpr h.chain.ne_nil]
  rw [h.active_last]
  simp

/-- C6 (amended): the structural invariant — non-empty segment list,
adjacent segments linked by `nextOffset = baseOffset` with strictly
increasing bases, active segment last — holds after `NewLog` over an empty
directory and is preserved by every `Append` and by every `Truncate` that
retains at least one segment (`Read` does not modify the state). `Reset`
violates it (it appends the re-opened segments to the still-populated
list), and a `Truncate` that removes every segment empties the list. -/
theorem structural_invariant_reachable (c : Config) (ops : List LogOp)
    (hinit : c.initialOffset < 2 ^ 63)
    (hvalid : opsOk (newLog [] c) ops = true) :
    structInv (runOps (newLog [] c) ops).1 = true := by
  obtain ⟨hok0, _, _⟩ := newLog_empty_ok c hinit
  have hw0 : WrittenInv (newLog [] c) [[]] [] := by
    intro p hp
    cases hp
  obtain ⟨vss', hok', _, _⟩ := runOps_inv ops (newLog [] c) [[]] [] hok0 hw0 hvalid
  exact hok'.structInv_true

/-- C6 amended-claim witness: a trace with appends, a roll-over and a
retaining truncate keeps the structural invariant. -/
theorem structural_invariant_reachable_witness :
    structInv (runOps (newLog [] ⟨9, 0, 0⟩)
      [.append ⟨[104], 0⟩, .append ⟨[105], 0⟩, .truncate 0, .append ⟨[106], 0⟩]).1 = true :=
  structural_invariant_reachable ⟨9, 0, 0⟩
    [.append ⟨[104], 0⟩, .append ⟨[105], 0⟩, .truncate 0, .append ⟨[106], 0⟩]
    (by decide) (by decide)

/-! ## Claim C7: Truncate -/

/-- C7: on any reachable Log, `Truncate(lowest)` removes exactly the
segments with `nextOffset ≤ lowest + 1` — their files leave the directory,
whose entries afterwards are exactly the retained bases in order — and
retains the rest in order; afterwards every offset of a retained segment
reads back successfully with its own offset stamped in the record, and
every offset below the new `LowestOffset` fails with
`ErrorOffsetOutOfRange` carrying exactly that offset. -/
theorem log_truncate_removes_exhausted (c : Config) (ops : List LogOp) (k : Nat)
    (hinit : c.initialOffset < 2 ^ 63)
    (hcap32 : c.withDefaults.maxIndexBytes < 12 * 2 ^ 32)
    (hvalid : opsOk (newLog [] c) ops = true) :
    ((runOps (newLog [] c) ops).1.truncate k).segments =
      (runOps (newLog [] c) ops).1.segments.filter
        (fun s => decide (k + 1 < s.nextOffset)) ∧
    ((runOps (newLog [] c) ops).1.truncate k).dir.map (fun e => e.base) =
      ((runOps (newLog [] c) ops).1.truncate k).segments.map (fun s => s.baseOffset) ∧
    (∀ o lo hi, ((runOps (newLog [] c) ops).1.truncate k).lowestOffset = some lo →
      ((runOps (newLog [] c) ops).1.truncate k).highestOffset = some hi →
      lo ≤ o → o ≤ hi →
      ∃ v, ((runOps (newLog [] c) ops).1.truncate k).read o = .ok ⟨v, o⟩) ∧
    (∀ o lo, ((runOps (newLog [] c) ops).1.truncate k).lowestOffset = some lo →
      o < lo →
      ((runOps (newLog [] c) ops).1.truncate k).read o = .error (.offsetOutOfRange o)) := by
  obtain ⟨hok0, _, _⟩ := newLog_empty_ok c hinit
  have hw0 : WrittenInv (newLog [] c) [[]] [] := by
    intro p hp
    cases hp
  obtain ⟨vss', hok', _, hcfg'⟩ := runOps_inv ops (newLog [] c) [[]] [] hok0 hw0 hvalid
  obtain ⟨n, hloop, htake, hdrop⟩ := hok'.chain.truncate_spec k
    (ops.foldl runOp ((newLog [] c), [])).1.dir
  have hsegs : ((ops.foldl runOp ((newLog [] c), [])).1.truncate k).segments =
      (ops.foldl runOp ((newLog [] c), [])).1.segments.drop n := by
    unfold Log.truncate
    rw [hloop]
  have hdir : ((ops.foldl runOp ((newLog [] c), [])).1.truncate k).dir =
      ((ops.foldl runOp ((newLog [] c), [])).1.segments.take n).foldl
        (fun dd s => dd.removeFiles s.baseOffset)
        (ops.foldl runOp ((newLog [] c), [])).1.dir := by
    unfold Log.truncate
    rw [hloop]
  have hfilter : (ops.foldl runOp ((newLog [] c), [])).1.segments.filter
      (fun s => decide (k + 1 < s.nextOffset)) =
      (ops.foldl runOp ((newLog [] c), [])).1.segments.drop n := by
    conv_lhs => rw [← List.take_append_drop n
      (ops.foldl runOp ((newLog [] c), [])).1.segments]
    rw [List.filter_append]
    rw [List.filter_eq_nil_iff.mpr (by
      intro s hs
      simp only [decide_eq_true_eq, not_lt]
      have := htake s hs
      omega)]
    rw [List.filter_eq_self.mpr (by
      intro s hs
      simp only [decide_eq_true_eq]
      exact hdrop s hs)]
    rfl
  simp only [runOps]
  refine ⟨?_, ?_, ?_, ?_⟩
  · rw [hsegs, hfilter]
  · rw [hsegs, hdir]
    exact dir_remove_prefix _ _ n hok'.dir_bases hok'.chain.bases_nodup
  · intro o lo hi hlo hhi ho1 ho2
    have hne : ((ops.foldl runOp ((newLog [] c), [])).1.truncate k).segments ≠ [] := by
      intro hc
      unfold Log.lowestOffset at hlo
      rw [hc] at hlo
      cases hlo
    obtain ⟨m, hsegs2, hok2, _, _, _, _, hdr2⟩ := hok'.truncate_inv k hne
    have hcap2 : ((ops.foldl runOp ((newLog [] c), [])).1.truncate k).config.maxIndexBytes <
        12 * 2 ^ 32 := by
      show (ops.foldl runOp ((newLog [] c), [])).1.config.maxIndexBytes < 12 * 2 ^ 32
      rw [hcfg']
      exact hcap32
    obtain ⟨a, ha⟩ : ∃ a, ((ops.foldl runOp ((newLog [] c), [])).1.truncate k).segments.getLast? =
        some a := by
      cases hg : ((ops.foldl runOp ((newLog [] c), [])).1.truncate k).segments.getLast? with
      | none =>
        rw [List.getLast?_eq_none_iff] at hg
        exact absurd hg hne
      | some a => exact ⟨a, rfl⟩
    have hamem : a ∈ ((ops.foldl runOp ((newLog [] c), [])).1.truncate k).segments :=
      List.mem_of_mem_getLast? ha
    have han : k + 1 < a.nextOffset := by
      rw [hsegs2] at hamem
      exact hdr2 a hamem
    have hln2 : lastNext ((ops.foldl runOp ((newLog [] c), [])).1.truncate k).segments =
        a.nextOffset := lastNext_of_getLast ha
    have hloeq : lo = headBase ((ops.foldl runOp ((newLog [] c), [])).1.truncate k).segments := by
      rw [lowestOffset_some hne] at hlo
      exact (Option.some.inj hlo).symm
    have hhieq : hi = a.nextOffset - 1 := by
      rw [highestOffset_some ha] at hhi
      rw [if_neg (by omega : ¬ a.nextOffset = 0)] at hhi
      exact (Option.some.inj hhi).symm
    obtain ⟨v, _, hread⟩ := @LogOK.read_in_range _ _ hok2 hcap2 o (by omega) (by omega)
    exact ⟨v, hread⟩
  · intro o lo hlo hless
    have hne : ((ops.foldl runOp ((newLog [] c), [])).1.truncate k).segments ≠ [] := by
      intro hc
      unfold Log.lowestOffset at hlo
      rw [hc] at hlo
      cases hlo
    obtain ⟨m, hsegs2, hok2, _, _, _, _, _⟩ := hok'.truncate_inv k hne
    have hlo2 := lowestOffset_some hne
    have hlo3 : ((ops.foldl runOp ((newLog [] c), [])).1.truncate k).lowestOffset =
        some lo := hlo
    rw [hlo2] at hlo3
    cases hlo3
    exact hok2.read_out_of_range (Or.inl hless)

/-- C7 witness: a log with three single-record segments; `Truncate(0)`
removes exactly the first segment, offset 1 stays readable, offset 0 now
fails with `OffsetOutOfRange(0)`. -/
theorem log_truncate_removes_exhausted_witness :
    (((runOps (newLog [] ⟨9, 0, 0⟩)
        [.append ⟨[104], 0⟩, .append ⟨[105], 0⟩]).1.truncate 0).segments =
      (runOps (newLog [] ⟨9, 0, 0⟩)
        [.append ⟨[104], 0⟩, .append ⟨[105], 0⟩]).1.segments.filter
          (fun s => decide (0 + 1 < s.nextOffset))) ∧
    (∃ v, ((runOps (newLog [] ⟨9, 0, 0⟩)
        [.append ⟨[104], 0⟩, .append ⟨[105], 0⟩]).1.truncate 0).read 1 = .ok ⟨v, 1⟩) ∧
    ((runOps (newLog [] ⟨9, 0, 0⟩)
        [.append ⟨[104], 0⟩, .append ⟨[105], 0⟩]).1.truncate 0).read 0 =
      .error (.offsetOutOfRange 0) := by
  have h := log_truncate_removes_exhausted ⟨9, 0, 0⟩
    [.append ⟨[104], 0⟩, .append ⟨[105], 0⟩] 0 (by decide) (by decide) (by decide)
  refine ⟨h.1, ?_, ?_⟩
  · exact h.2.2.1 1 1 1 (by decide) (by decide) (by decide) (by decide)
  · exact h.2.2.2 0 1 (by decide) (by decide)

/-! ## Claim C8: setup listing, dedup, sort -/

theorem openSegment_base (d : Disk) (b : Nat) (c : Config) :
    (openSegment d b c).1.baseOffset = b := by
  unfold openSegment
  cases d.lookup b <;> rfl

theorem addSegment_segments (l : Log) (b : Nat) :
    (l.addSegment b).segments = l.segments ++ [(openSegment l.dir b l.config).1] := rfl

theorem foldl_addSegment_bases (bs : List Nat) (l : Log) :
    ((bs.foldl Log.addSegment l).segments.map (fun s => s.baseOffset)) =
      l.segments.map (fun s => s.baseOffset) ++ bs := by
  induction bs generalizing l with
  | nil => simp
  | cons b rest ih =>
    rw [List.foldl_cons, ih, addSegment_segments]
    simp [openSegment_base]

theorem setupSkip_dupEach (bs : List Nat) :
    setupSkip (bs.flatMap (fun b => [b, b])) = bs := by
  induction bs with
  | nil => rfl
  | cons b rest ih =>
    show b :: setupSkip (rest.flatMap (fun b => [b, b])) = b :: rest
    rw [ih]

theorem listing_eq_dupEach (d : Disk) :
    Disk.listing d = (d.map (fun e => e.base)).flatMap (fun b => [b, b]) := by
  induction d with
  | nil => rfl
  | cons e rest ih =>
    show [e.base, e.base] ++ Disk.listing rest = _
    rw [List.map_cons, List.flatMap_cons, ih]

theorem sorted_dupEach {bs : List Nat} (h : bs.Sorted (· ≤ ·)) :
    (bs.flatMap (fun b => [b, b])).Sorted (· ≤ ·) := by
  induction bs with
  | nil => exact List.sorted_nil
  | cons b rest ih =>
    rw [List.sorted_cons] at h
    rw [List.flatMap_cons]
    show ((b :: b :: rest.flatMap (fun b => [b, b]))).Sorted (· ≤ ·)
    rw [List.sorted_cons, List.sorted_cons]
    refine ⟨?_, ?_, ih h.2⟩
    · intro x hx
      rcases List.mem_cons.mp hx with h1 | h1
      · omega
      · obtain ⟨y, hy, hxy⟩ := List.mem_flatMap.mp h1
        rcases List.mem_cons.mp hxy with h2 | h2
        · rw [h2]; exact h.1 y hy
        · rcases List.mem_singleton.mp h2 with h3
          rw [h3]; exact h.1 y hy
    · intro x hx
      obtain ⟨y, hy, hxy⟩ := List.mem_flatMap.mp hx
      rcases List.mem_cons.mp hxy with h2 | h2
      · rw [h2]; exact h.1 y hy
      · rcases List.mem_singleton.mp h2 with h3
        rw [h3]; exact h.1 y hy

theorem insertionSort_dupEach (bs : List Nat) :
    (bs.flatMap (fun b => [b, b])).insertionSort (· ≤ ·) =
      (bs.insertionSort (· ≤ ·)).flatMap (fun b => [b, b]) := by
  refine List.eq_of_perm_of_sorted ?_ (List.sorted_insertionSort _ _)
    (sorted_dupEach (List.sorted_insertionSort _ _))
  exact (List.perm_insertionSort _ _).trans
    (((List.perm_insertionSort (· ≤ ·) bs).flatMap_right (fun b => [b, b])).symm)

/-- C8: on a directory holding store/index file pairs, `setup` yields exactly
one segment per base offset (the two files of a base collapse to one
segment), in ascending base order; on an empty directory a single segment at
`Config.InitialOffset` is created. -/
theorem log_setup_dedups_and_sorts (d : Disk) (c : Config) :
    (newLog d c).segments.map (fun s => s.baseOffset) =
      if d = [] then [c.initialOffset]
      else (d.map (fun e => e.base)).insertionSort (· ≤ ·) := by
  have hb : setupSkip ((Disk.listing d).insertionSort (· ≤ ·)) =
      (d.map (fun e => e.base)).insertionSort (· ≤ ·) := by
    rw [listing_eq_dupEach, insertionSort_dupEach, setupSkip_dupEach]
  unfold newLog Log.setup
  rw [hb]
  set l0 : Log := { dir := d, config := c.withDefaults, segments := [], active := none } with hl0
  have hfold := foldl_addSegment_bases ((d.map (fun e => e.base)).insertionSort (· ≤ ·)) l0
  by_cases hd : d = []
  · subst hd
    rw [if_pos rfl]
    show ((List.foldl Log.addSegment l0 []).addSegment c.withDefaults.initialOffset).segments.map
      (fun s => s.baseOffset) = [c.initialOffset]
    rw [List.foldl_nil, addSegment_segments]
    simp [openSegment_base]
    rfl
  · rw [if_neg hd]
    have hne : (d.map (fun e => e.base)).insertionSort (· ≤ ·) ≠ [] := by
      intro hc
      have := (List.perm_insertionSort (· ≤ ·) (d.map (fun e => e.base))).symm
      rw [hc] at this
      have h0 := this.length_eq
      simp at h0
      exact hd h0
    have hie : ((((d.map (fun e => e.base)).insertionSort (· ≤ ·)).foldl
        Log.addSegment l0).segments).isEmpty = false := by
      rw [List.isEmpty_eq_false]
      intro hc
      apply hne
      have := hfold
      rw [hc] at this
      simp at this
      rw [this]
    rw [if_neg (by rw [hie]; exact Bool.false_ne_true ∘ id)]
    rw [hfold]
    simp

/-! ## Claim C4: close and reopen -/

/-- The on-disk content `Close` writes for one segment. -/
def Segment.files (s : Segment) : DiskSeg :=
  ⟨s.baseOffset, s.store.data, s.index.entries⟩

theorem writeFiles_cons_ne {X e : DiskSeg} (d : Disk) (h : X.base ≠ e.base) :
    Disk.writeFiles (X :: d) e = X :: Disk.writeFiles d e := by
  unfold Disk.writeFiles
  have hb : (X.base == e.base) = false := by
    simp [h]
  rw [List.any_cons, hb]
  simp only [Bool.false_or]
  by_cases ha : d.any (fun x => x.base == e.base) = true
  · rw [if_pos ha, if_pos ha, List.map_cons, hb]
    rfl
  · rw [if_neg ha, if_neg ha, List.cons_append]

theorem foldl_writeFiles_cons (rest : List Segment) (X : DiskSeg) :
    ∀ d : Disk, (∀ t ∈ rest, t.baseOffset ≠ X.base) →
    rest.foldl (fun dd s => Disk.writeFiles dd s.files) (X :: d) =
      X :: rest.foldl (fun dd s => Disk.writeFiles dd s.files) d := by
  induction rest with
  | nil => intro d _; rfl
  | cons t rrest ih =>
    intro d hall
    rw [List.foldl_cons, List.foldl_cons]
    rw [show Disk.writeFiles (X :: d) t.files = X :: Disk.writeFiles d t.files from
      writeFiles_cons_ne d (fun hc => hall t (by simp) hc.symm)]
    exact ih _ (fun u hu => hall u (by simp [hu]))

theorem close_fold (segs : List Segment) : ∀ d : Disk,
    d.map (fun e => e.base) = segs.map (fun s => s.baseOffset) →
    (segs.map (fun s => s.baseOffset)).Nodup →
    segs.foldl (fun dd s => Disk.writeFiles dd s.files) d = segs.map Segment.files := by
  induction segs with
  | nil =>
    intro d hd _
    cases d with
    | nil => rfl
    | cons X drest => simp at hd
  | cons s rest ih =>
    intro d hd hnd
    cases d with
    | nil => simp at hd
    | cons X drest =>
      rw [List.map_cons, List.map_cons] at hd
      have hX : X.base = s.baseOffset := by
        injection hd
      have hdrest : drest.map (fun e => e.base) = rest.map (fun t => t.baseOffset) := by
        injection hd with h1 h2
      rw [List.map_cons] at hnd
      rw [List.nodup_cons] at hnd
      have hstep : Disk.writeFiles (X :: drest) s.files = s.files :: drest := by
        unfold Disk.writeFiles
        have hb : (X.base == s.files.base) = true := by
          simp [Segment.files, hX]
        rw [List.any_cons, hb]
        simp only [Bool.true_or, if_pos]
        rw [List.map_cons, hb]
        simp only [if_pos]
        congr 1
        have hmap : drest.map (fun x => if (x.base == s.files.base) = true then s.files else x) =
            drest.map (fun x => x) := by
          apply List.map_congr_left
          intro x hx
          have hxb : x.base ∈ rest.map (fun t => t.baseOffset) := by
            rw [← hdrest]
            exact List.mem_map_of_mem _ hx
          rw [if_neg ?_]
          simp only [beq_iff_eq, Segment.files]
          intro hc
          rw [hc] at hxb
          exact hnd.1 hxb
        rw [hmap, List.map_id_fun']
        rfl
      rw [List.foldl_cons, hstep]
      rw [foldl_writeFiles_cons rest s.files drest (by
        intro t ht hc
        apply hnd.1
        rw [show s.files.base = s.baseOffset from rfl] at hc
        rw [← hc]
        exact List.mem_map_of_mem _ ht)]
      rw [ih drest hdrest hnd.2, List.map_cons]

theorem segDisk_lookup (segs : List Segment) :
    ∀ s ∈ segs, (segs.map (fun t => t.baseOffset)).Nodup →
    Disk.lookup (segs.map Segment.files) s.baseOffset = some s.files := by
  induction segs with
  | nil => intro s hs; cases hs
  | cons t rest ih =>
    intro s hs hnd
    rw [List.map_cons, List.nodup_cons] at hnd
    rcases List.mem_cons.mp hs with h1 | h1
    · subst h1
      unfold Disk.lookup
      rw [List.map_cons, List.find?_cons]
      rw [show (s.files.base == s.baseOffset) = true by simp [Segment.files]]
    · have hne : t.baseOffset ≠ s.baseOffset := by
        intro hc
        apply hnd.1
        rw [hc]
        exact List.mem_map_of_mem _ h1
      unfold Disk.lookup
      rw [List.map_cons, List.find?_cons]
      rw [show (t.files.base == s.baseOffset) = false by simp [Segment.files, hne]]
      exact ih s h1 hnd.2

theorem SegChain.segOK_of_mem {segs : List Segment} {vss : List (List (List Nat))}
    (h : SegChain segs vss) : ∀ s ∈ segs, ∃ vals, SegOK s vals := by
  induction h with
  | last s vs hs =>
    intro t ht
    rw [List.mem_singleton] at ht
    subst ht
    exact ⟨vs, hs⟩
  | cons s vs rest vss hs hne hlink hrest ih =>
    intro t ht
    rcases List.mem_cons.mp ht with h1 | h1
    · subst h1
      exact ⟨vs, hs⟩
    · exact ih t h1

theorem SegOK.last_entry {s : Segment} {vals : List (List Nat)} (h : SegOK s vals)
    (hcap32 : s.config.maxIndexBytes < 12 * 2 ^ 32) (hne : vals.length ≠ 0) :
    ∃ p, s.index.entries.get? (vals.length - 1) = some (vals.length - 1, p) := by
  have hlen := h.entries_len
  have hcap := h.cap_ok
  have hccfg := h.cap_cfg
  have hlt : vals.length - 1 < 2 ^ 32 := by omega
  obtain ⟨v, hv⟩ : ∃ v, vals.get? (vals.length - 1) = some v := by
    cases hg : vals.get? (vals.length - 1) with
    | none =>
      rw [List.get?_eq_none] at hg
      omega
    | some v => exact ⟨v, rfl⟩
  obtain ⟨p, hent, _⟩ := h.entry _ v hv
  rw [Nat.mod_eq_of_lt hlt] at hent
  exact ⟨p, hent⟩

theorem SegOK.read_last {s : Segment} {vals : List (List Nat)} (h : SegOK s vals)
    (hcap32 : s.config.maxIndexBytes < 12 * 2 ^ 32) (hne : vals.length ≠ 0) :
    ∃ p, Index.read s.index (-1) = .ok (vals.length - 1, p) := by
  have hlen := h.entries_len
  have hcap := h.cap_ok
  have hccfg := h.cap_cfg
  have hlt : vals.length - 1 < 2 ^ 32 := by omega
  obtain ⟨p, hent⟩ := h.last_entry hcap32 hne
  refine ⟨p, ?_⟩
  unfold Index.read
  rw [if_neg (by unfold Index.size; omega)]
  simp only [eq_self_iff_true, if_true]
  have hsz : Index.size s.index = 12 * vals.length := by
    unfold Index.size
    omega
  rw [hsz]
  rw [Nat.mul_div_cancel_left vals.length (by norm_num : 0 < 12)]
  rw [Nat.mod_eq_of_lt hlt]
  rw [if_neg (by omega)]
  rw [hent]

/-- `newSegment` over the files a closed segment left on disk reconstructs
that segment exactly: same store bytes, same index entries, and `nextOffset`
recomputed from the last index entry (`baseOffset` when the index is empty). -/
theorem openSegment_reopen {s : Segment} {vals : List (List Nat)} (d : Disk)
    (h : SegOK s vals) (hcap32 : s.config.maxIndexBytes < 12 * 2 ^ 32)
    (hlook : Disk.lookup d s.baseOffset = some s.files) :
    openSegment d s.baseOffset s.config = (s, d) := by
  have hnxt : (match Index.read s.index (-1) with
      | .error _ => s.baseOffset
      | .ok e => s.baseOffset + e.1 + 1) = s.nextOffset := by
    by_cases h0 : vals.length = 0
    · have hrd : Index.read s.index (-1) = .error .eof := by
        unfold Index.read
        rw [if_pos (by unfold Index.size; rw [h.entries_len]; omega)]
      rw [hrd]
      show s.baseOffset = s.nextOffset
      rw [h.next_eq]
      omega
    · obtain ⟨p, hrd⟩ := h.read_last hcap32 h0
      rw [hrd]
      show s.baseOffset + (vals.length - 1) + 1 = s.nextOffset
      rw [h.next_eq]
      omega
  unfold openSegment
  rw [hlook]
  show (⟨⟨s.store.data⟩, ⟨s.index.entries, s.config.maxIndexBytes⟩, s.baseOffset,
      (match Index.read ⟨s.index.entries, s.config.maxIndexBytes⟩ (-1) with
        | .error _ => s.baseOffset
        | .ok e => s.baseOffset + e.1 + 1), s.config⟩, d) = (s, d)
  rw [show (⟨s.index.entries, s.config.maxIndexBytes⟩ : Index) = s.index from by
    rw [← h.cap_cfg]]
  rw [hnxt]

theorem setup_fold_reopen (segs : List Segment) : ∀ (l : Log),
    (∀ s ∈ segs, openSegment l.dir s.baseOffset l.config = (s, l.dir)) →
    ((segs.map (fun s => s.baseOffset)).foldl Log.addSegment l).segments =
      l.segments ++ segs ∧
    ((segs.map (fun s => s.baseOffset)).foldl Log.addSegment l).dir = l.dir := by
  induction segs with
  | nil =>
    intro l _
    exact ⟨(List.append_nil _).symm, rfl⟩
  | cons s rest ih =>
    intro l hopen
    rw [List.map_cons, List.foldl_cons]
    have h1 : l.addSegment s.baseOffset =
        { l with segments := l.segments ++ [s], active := some s } := by
      unfold Log.addSegment
      rw [hopen s (by simp)]
    rw [h1]
    obtain ⟨ha, hb⟩ := ih { l with segments := l.segments ++ [s], active := some s }
      (fun t ht => hopen t (by simp [ht]))
    refine ⟨?_, hb⟩
    rw [ha]
    simp

theorem SegOK.next_from_last_entry {s : Segment} {vals : List (List Nat)}
    (h : SegOK s vals) (hcap32 : s.config.maxIndexBytes < 12 * 2 ^ 32) :
    s.nextOffset = match s.index.entries.getLast? with
      | none => s.baseOffset
      | some e => s.baseOffset + e.1 + 1 := by
  by_cases h0 : vals.length = 0
  · have hlen : s.index.entries.length = 0 := by rw [h.entries_len]; omega
    have hnil : s.index.entries = [] := List.length_eq_zero.mp hlen
    rw [hnil]
    show s.nextOffset = s.baseOffset
    rw [h.next_eq]
    omega
  · obtain ⟨p, hent⟩ := h.last_entry hcap32 h0
    have hlast : s.index.entries.getLast? = some (vals.length - 1, p) := by
      rw [List.getLast?_eq_getElem?, ← List.get?_eq_getElem?, h.entries_len]
      exact hent
    rw [hlast]
    show s.nextOffset = s.baseOffset + (vals.length - 1) + 1
    rw [h.next_eq]
    omega

/-- C4: closing a reachable Log and constructing a new Log over the directory
it left behind, with the same Config, reconstructs the very same segment
list — hence the same `LowestOffset`, the same `HighestOffset` and the same
result of `Read` at every offset — and every reopened segment's `nextOffset`
equals `baseOffset + lastRelOff + 1` for the last index entry, or
`baseOffset` when the index is empty. -/
theorem log_close_reopen_preserves (c : Config) (ops : List LogOp)
    (hinit : c.initialOffset < 2 ^ 63)
    (hcap32 : c.withDefaults.maxIndexBytes < 12 * 2 ^ 32)
    (hvalid : opsOk (newLog [] c) ops = true) :
    (newLog (runOps (newLog [] c) ops).1.close.dir c).segments =
      (runOps (newLog [] c) ops).1.segments ∧
    (newLog (runOps (newLog [] c) ops).1.close.dir c).lowestOffset =
      (runOps (newLog [] c) ops).1.lowestOffset ∧
    (newLog (runOps (newLog [] c) ops).1.close.dir c).highestOffset =
      (runOps (newLog [] c) ops).1.highestOffset ∧
    (∀ o, (newLog (runOps (newLog [] c) ops).1.close.dir c).read o =
      (runOps (newLog [] c) ops).1.read o) ∧
    (∀ s ∈ (newLog (runOps (newLog [] c) ops).1.close.dir c).segments,
      s.nextOffset = match s.index.entries.getLast? with
        | none => s.baseOffset
        | some e => s.baseOffset + e.1 + 1) := by
  obtain ⟨hok0, _, _⟩ := newLog_empty_ok c hinit
  have hw0 : WrittenInv (newLog [] c) [[]] [] := by
    intro p hp
    cases hp
  obtain ⟨vss', hok', _, hcfg'⟩ := runOps_inv ops (newLog [] c) [[]] [] hok0 hw0 hvalid
  simp only [runOps]
  set L := (ops.foldl runOp ((newLog [] c), [])).1 with hLdef
  have hLcfg : L.config = c.withDefaults := by
    rw [hcfg']
    rfl
  have hclose : L.close.dir = L.segments.map Segment.files :=
    close_fold L.segments L.dir hok'.dir_bases hok'.chain.bases_nodup
  have hreopen : ∀ s ∈ L.segments,
      openSegment (L.segments.map Segment.files) s.baseOffset c.withDefaults =
        (s, L.segments.map Segment.files) := by
    intro s hs
    obtain ⟨vals, hsok⟩ := hok'.chain.segOK_of_mem s hs
    have hscfg : s.config = c.withDefaults := by
      rw [hok'.cfg_each s hs, hLcfg]
    have hlook := segDisk_lookup L.segments s hs hok'.chain.bases_nodup
    have hre := openSegment_reopen (L.segments.map Segment.files) hsok
      (by rw [hscfg]; exact hcap32) hlook
    rw [hscfg] at hre
    exact hre
  have hbases_sorted : (L.segments.map (fun s => s.baseOffset)).Sorted (· ≤ ·) :=
    (hok'.chain.bases_pairwise).imp (fun h => Nat.le_of_lt h)
  have hlist : Disk.listing (L.segments.map Segment.files) =
      (L.segments.map (fun s => s.baseOffset)).flatMap (fun b => [b, b]) := by
    rw [listing_eq_dupEach, List.map_map]
    rfl
  have hskip : setupSkip ((Disk.listing (L.segments.map Segment.files)).insertionSort
      (· ≤ ·)) = L.segments.map (fun s => s.baseOffset) := by
    rw [hlist, insertionSort_dupEach, hbases_sorted.insertionSort_eq, setupSkip_dupEach]
  have hmain : (newLog (L.segments.map Segment.files) c).segments = L.segments := by
    unfold newLog Log.setup
    rw [hskip]
    obtain ⟨hfs, hfd⟩ := setup_fold_reopen L.segments
      { dir := L.segments.map Segment.files, config := c.withDefaults,
        segments := [], active := none } hreopen
    have hfs' : ((L.segments.map (fun s => s.baseOffset)).foldl Log.addSegment
        { dir := L.segments.map Segment.files, config := c.withDefaults,
          segments := [], active := none }).segments = L.segments := by
      rw [hfs]
      rfl
    rw [if_neg (by simp [hfs', hok'.chain.ne_nil])]
    exact hfs'
  rw [hclose]
  refine ⟨hmain, ?_, ?_, ?_, ?_⟩
  · unfold Log.lowestOffset
    rw [hmain]
  · unfold Log.highestOffset
    rw [hmain]
  · intro o
    unfold Log.read
    rw [hmain]
  · intro s hs
    rw [hmain] at hs
    obtain ⟨vals, hsok⟩ := hok'.chain.segOK_of_mem s hs
    have hscfg : s.config = c.withDefaults := by
      rw [hok'.cfg_each s hs, hLcfg]
    exact hsok.next_from_last_entry (by rw [hscfg]; exact hcap32)

/-- C4 witness: a two-segment log of two one-byte records; closing it and
opening a new log on its directory reproduces the offset bounds and the
record at offset 0. -/
theorem log_close_reopen_preserves_witness :
    (newLog (runOps (newLog [] ⟨9, 0, 0⟩)
        [.append ⟨[104], 7⟩]).1.close.dir ⟨9, 0, 0⟩).lowestOffset =
      (runOps (newLog [] ⟨9, 0, 0⟩) [.append ⟨[104], 7⟩]).1.lowestOffset ∧
    (newLog (runOps (newLog [] ⟨9, 0, 0⟩)
        [.append ⟨[104], 7⟩]).1.close.dir ⟨9, 0, 0⟩).highestOffset =
      (runOps (newLog [] ⟨9, 0, 0⟩) [.append ⟨[104], 7⟩]).1.highestOffset ∧
    (newLog (runOps (newLog [] ⟨9, 0, 0⟩)
        [.append ⟨[104], 7⟩]).1.close.dir ⟨9, 0, 0⟩).read 0 =
      (runOps (newLog [] ⟨9, 0, 0⟩) [.append ⟨[104], 7⟩]).1.read 0 := by
  have h := log_close_reopen_preserves ⟨9, 0, 0⟩ [.append ⟨[104], 7⟩]
    (by decide) (by decide) (by decide)
  exact ⟨h.2.1, h.2.2.1, h.2.2.2.1 0⟩

end Prolog
